import Mathlib

/-!
Verification development for the caption-indexed cross-channel relay engine
(`main.py` / `config.py` of the `gitalistmaker` repository).

The Python source is shallowly embedded: pure helper functions become Lean
functions on `List Char` / `String` / `Int`; remote calls (message fetching,
copying) become explicit oracle arguments; exceptions become `Option` /
`Except` results.  Each definition is a direct translation of the function of
the same name in `main.py`; scope restrictions of the character-level model
(Python's full Unicode tables are not reproduced) are stated in the doc
comment of the definition concerned.
-/

namespace ListMaker

/-- The ASCII whitespace characters of Python: exactly the characters below
`0x80` for which `str.isspace()` holds, equivalently which the regex class
`\s` matches (`str.strip()` and `\s` agree on this set). -/
def isPySpace (c : Char) : Bool :=
  c = ' ' || c = '\t' || c = '\n' || c = '\x0b' || c = '\x0c' || c = '\r' ||
  c = '\x1c' || c = '\x1d' || c = '\x1e' || c = '\x1f'

/-- Python `str.strip()`: drop leading and trailing whitespace. -/
def pyStrip (l : List Char) : List Char :=
  ((l.dropWhile isPySpace).reverse.dropWhile isPySpace).reverse

/-- The maximal non-whitespace run at the head of a string (the region a
`\S+`-terminated regex match at position 0 is confined to). -/
def headRun (l : List Char) : List Char :=
  l.takeWhile (fun c => !isPySpace c)

/-- Case-insensitive literal prefix test: pattern `p` (given in lowercase
ASCII) matches the first `p.length` characters of the subject, each compared
after ASCII lowercasing — the comparison `re.IGNORECASE` performs on the
literal characters of `URL_IN_TEXT_RE` / `LINK_RE`.  (Python additionally
pairs a few non-ASCII codepoints such as `ſ`/`s`; those pairings are outside
the character set this development evaluates the matcher on.) -/
def isCIPre : List Char → List Char → Bool
  | [], _ => true
  | _ :: _, [] => false
  | p :: ps, c :: cs => c.toLower = p && isCIPre ps cs

/-- The literal prefixes of the alternatives of `URL_IN_TEXT_RE`
(`https?://\S+|t\.me/\S+|telegram\.(me|dog)/\S+`): the optional `s?` and the
group `(me|dog)` are expanded, longer variant first, mirroring the greedy
preference of the engine.  Distinct prefixes never match at the same
position (they differ at an index below both lengths). -/
def urlPats : List (List Char) :=
  ["https://".toList, "http://".toList, "t.me/".toList,
   "telegram.me/".toList, "telegram.dog/".toList]

/-- The match of `URL_IN_TEXT_RE` at the head of `s`, if any, and its length:
some pattern prefix matches case-insensitively, followed by at least one
non-whitespace character; the greedy `\S+` then extends the match up to the
next whitespace character (or the end). -/
def matchLen (s : List Char) : Option Nat :=
  match urlPats.find? (fun p => isCIPre p s) with
  | some p =>
      let k := ((s.drop p.length).takeWhile (fun c => !isPySpace c)).length
      if k = 0 then none else some (p.length + k)
  | none => none

/-- The value of `matchLen` as a function of the head non-whitespace run
alone (`matchLen_eq_matchRun` below): a pattern prefix strictly inside the
run matches, and the greedy `\S+` extends the match to the whole run. -/
def matchRun (r : List Char) : Option Nat :=
  match urlPats.find? (fun p => isCIPre p r) with
  | some p => if p.length < r.length then some r.length else none
  | none => none

/-- No `URL_IN_TEXT_RE` match starts at any position of `s`. -/
def noMatch (s : List Char) : Prop := ∀ i, matchLen (s.drop i) = none

/-- Whitespace normal form: every whitespace character is a plain space and
no two whitespace characters are adjacent (the invariant `collapseWs`
establishes and which makes it the identity). -/
def goodWs (l : List Char) : Prop :=
  (∀ c ∈ l, isPySpace c = true → c = ' ') ∧
  List.Chain' (fun a b => ¬ (isPySpace a = true ∧ isPySpace b = true)) l

/-- No leading and no trailing whitespace (the invariant `str.strip()`
establishes and which makes it the identity). -/
def trimmed (l : List Char) : Prop :=
  (∀ c ∈ l.head?, isPySpace c = false) ∧ (∀ c ∈ l.getLast?, isPySpace c = false)

/-- Every character is ASCII — the domain on which the embedded character
tables (`Char.toLower` for `str.casefold`, ASCII `\d`, `re.IGNORECASE`
pairing) agree exactly with Python's. -/
def allAscii (l : List Char) : Prop := ∀ c ∈ l, c.toNat < 128

/-- Worker for `urlSub`, structurally recursive on a fuel argument that stays
at or above the length of the remaining input (the body of each step is
exactly the scanning step of `re.sub`; fuel only discharges termination). -/
def urlSubGo : Nat → List Char → List Char
  | 0, _ => []
  | _ + 1, [] => []
  | f + 1, c :: cs =>
    match matchLen (c :: cs) with
    | some l => urlSubGo f ((c :: cs).drop l)
    | none => c :: urlSubGo f cs

/-- `URL_IN_TEXT_RE.sub("", s)`: scan left to right; delete each leftmost
match and resume scanning immediately after it. -/
def urlSub (s : List Char) : List Char :=
  urlSubGo s.length s

/-- Worker for `collapseWs`, structurally recursive on fuel (same device as
`urlSubGo`). -/
def collapseWsGo : Nat → List Char → List Char
  | 0, _ => []
  | _ + 1, [] => []
  | f + 1, c :: cs =>
    if isPySpace c then ' ' :: collapseWsGo f (cs.dropWhile isPySpace)
    else c :: collapseWsGo f cs

/-- `re.sub(r"\s+", " ", s)`: replace every maximal whitespace run by a
single space character. -/
def collapseWs (s : List Char) : List Char :=
  collapseWsGo s.length s

/-- Python `str.casefold`, restricted to the characters this development
evaluates it on: ASCII characters fold to their ASCII lowercase, and the
ligature `ﬅ` (U+FB05) folds to the two-character sequence `st` (Unicode full
case folding, `CaseFolding.txt` entry `FB05; F; 0073 0074`).  Other
multi-character foldings are not modelled. -/
def pyCaseFold (c : Char) : List Char :=
  if c = 'ﬅ' then ['s', 't'] else [c.toLower]

/-- `clean_caption` from `main.py`, at the level of character lists:
strip, remove every `URL_IN_TEXT_RE` match, collapse whitespace runs to
single spaces, strip again, casefold.  (The early return for the empty
string coincides with the pipeline's value there.) -/
def cleanL (l : List Char) : List Char :=
  ((pyStrip (collapseWs (urlSub (pyStrip l)))).map pyCaseFold).flatten

/-- `clean_caption` from `main.py` on `String`. -/
def clean_caption (s : String) : String :=
  String.mk (cleanL s.toList)

/-- Plain (case-sensitive) prefix test on lists, as a Boolean. -/
def listPreB : List Char → List Char → Bool
  | [], _ => true
  | _ :: _, [] => false
  | a :: l₁, b :: l₂ => a = b && listPreB l₁ l₂

/-- `ChatRef = Union[int, str]` from `main.py`: a numeric chat id or a
textual handle. -/
inductive ChatRef where
  | id (n : Int)
  | handle (s : String)
deriving DecidableEq, Repr

def isAsciiDigit (c : Char) : Bool := 48 ≤ c.toNat && c.toNat ≤ 57

/-- Value of a list of ASCII digit characters, most significant first. -/
def digitsVal (l : List Char) : Nat :=
  l.foldl (fun a c => a * 10 + (c.toNat - 48)) 0

/-- Python `int(str)`: strip whitespace, accept one optional sign followed by
one or more digits.  Restricted to ASCII digits; Python's acceptance of
Unicode decimal digits and of grouping underscores is not modelled.  `none`
models the `ValueError` int-parsing raises on every other string. -/
def pyInt (l : List Char) : Option Int :=
  match pyStrip l with
  | [] => none
  | c :: cs =>
      if c = '-' then
        if cs ≠ [] ∧ cs.all isAsciiDigit then some (-(digitsVal cs : Int)) else none
      else if c = '+' then
        if cs ≠ [] ∧ cs.all isAsciiDigit then some (digitsVal cs : Int) else none
      else if (c :: cs).all isAsciiDigit then some (digitsVal (c :: cs) : Int)
      else none

/-- Python `str.isdigit()`, restricted to ASCII digits (Python also accepts
some non-ASCII digit codepoints; they are outside the modelled character
set). -/
def pyIsDigit (l : List Char) : Bool := !l.isEmpty && l.all isAsciiDigit

/-- The first two statements of `normalize_chat_ref`: `s.strip()` followed by
removal of one leading `@`. -/
def refText (s : String) : List Char :=
  let t0 := pyStrip s.toList
  if t0.head? = some '@' then t0.tail else t0

/-- `normalize_chat_ref` from `main.py`: strip, drop one leading `@`, and if
the text with all leading `-` removed is made of digits, convert with
`int(s)`; otherwise keep the text as a handle.  `none` models the uncaught
`ValueError` that `int(s)` raises (reachable: `lstrip("-")` removes every
leading dash, so `--5` passes the digit test but fails conversion). -/
def normalize_chat_ref (s : String) : Option ChatRef :=
  let t := refText s
  if pyIsDigit (t.dropWhile (· = '-')) then (pyInt t).map ChatRef.id
  else some (ChatRef.handle (String.mk t))

/-- Decimal digits of `n`, worker with fuel (fuel ≥ number of digits). -/
def natDigitsGo : Nat → Nat → List Char → List Char
  | 0, _, acc => acc
  | f + 1, n, acc =>
      if n < 10 then Nat.digitChar n :: acc
      else natDigitsGo f (n / 10) (Nat.digitChar (n % 10) :: acc)

/-- Python `str(n)` for a natural number. -/
def natToStr (n : Nat) : List Char := natDigitsGo (n + 1) n []

/-- Python `str(i)` for an integer: optional leading `-`, then digits. -/
def intToStr (i : Int) : List Char :=
  if i < 0 then '-' :: natToStr i.natAbs else natToStr i.natAbs

/-- Python `s.replace(pat, "")` for a non-empty `pat`: delete every leftmost
occurrence, resuming the scan after the deleted occurrence.  Worker with
fuel. -/
def removeAllGo (pat : List Char) : Nat → List Char → List Char
  | 0, _ => []
  | _ + 1, [] => []
  | f + 1, c :: cs =>
      if listPreB pat (c :: cs) then removeAllGo pat f ((c :: cs).drop pat.length)
      else c :: removeAllGo pat f cs

def removeAll (pat s : List Char) : List Char := removeAllGo pat s.length s

/-- Modelled from the spec's words for comparison with the implementation:
"the platform's external-facing channel id is the internal id with a fixed
numeric prefix removed" — remove one leading `-100` if present, else leave
the string unchanged. -/
def dropNeg100Pre (l : List Char) : List Char :=
  if listPreB ['-', '1', '0', '0'] l then l.drop 4 else l

/-- `make_post_link` from `main.py`: public `t.me/<username>/<id>` when the
username is truthy (Python: a non-`None`, non-empty string), else the private
`t.me/c/<internal>/<id>` form with `str(chat_id).replace("-100", "")`. -/
def make_post_link (chat_username : Option String) (chat_id : Int) (msg_id : Nat) : String :=
  match chat_username with
  | some u =>
      if u ≠ "" then "https://t.me/" ++ u ++ "/" ++ String.mk (natToStr msg_id)
      else "https://t.me/c/" ++ String.mk (removeAll ['-', '1', '0', '0'] (intToStr chat_id))
             ++ "/" ++ String.mk (natToStr msg_id)
  | none =>
      "https://t.me/c/" ++ String.mk (removeAll ['-', '1', '0', '0'] (intToStr chat_id))
        ++ "/" ++ String.mk (natToStr msg_id)

/-- The character class `[^/\s]` of `LINK_RE`. -/
def isLinkChatChar (c : Char) : Bool := !(c = '/') && !isPySpace c

/-- Attempt the tail `([^/\s]+)/(\d+)` of `LINK_RE` at `v`: a maximal
non-empty run of `[^/\s]` (greedy, and no shorter run can succeed because the
run cannot contain `/`), then `/`, then one or more digits (greedy).  Returns
the chat part and the message id. -/
def linkTail (v : List Char) : Option (List Char × Nat) :=
  let chat := v.takeWhile isLinkChatChar
  if chat.isEmpty then none
  else
    match v.drop chat.length with
    | '/' :: r =>
        let ds := r.takeWhile isAsciiDigit
        if ds.isEmpty then none else some (chat, digitsVal ds)
    | _ => none

/-- A match of `LINK_RE` (`(?:https?://)?t\.me/(c/)?([^/\s]+)/(\d+)`,
case-insensitive) anchored at the head of `u`: optional scheme, literal
`t.me/`, then preferentially the optional `c/` group (backtracking to the
`c`-less reading when the rest fails, exactly the regex engine's order).
Returns (`is_c`, chat part, message id). -/
def linkMatchAt (u : List Char) : Option (Bool × List Char × Nat) :=
  let u1 := if isCIPre "https://".toList u then u.drop 8
            else if isCIPre "http://".toList u then u.drop 7 else u
  if isCIPre "t.me/".toList u1 then
    let u2 := u1.drop 5
    if isCIPre "c/".toList u2 then
      match linkTail (u2.drop 2) with
      | some (chat, mid) => some (true, chat, mid)
      | none =>
          match linkTail u2 with
          | some (chat, mid) => some (false, chat, mid)
          | none => none
    else
      match linkTail u2 with
      | some (chat, mid) => some (false, chat, mid)
      | none => none
  else none

/-- `LINK_RE.search`: the leftmost position at which `linkMatchAt`
succeeds. -/
def linkSearch : List Char → Option (Bool × List Char × Nat)
  | [] => none
  | c :: cs =>
      match linkMatchAt (c :: cs) with
      | some r => some r
      | none => linkSearch cs

/-- `parse_tme_link` from `main.py`.  `none` models a raised exception:
either `ValueError("Invalid t.me link")` when the regex does not match, or
the `ValueError` from `int(chat_part)` / `int(f"-100{internal}")` when the
`c/` chat part is not numeric. -/
def parse_tme_link (s : String) : Option (ChatRef × Nat) :=
  match linkSearch (pyStrip s.toList) with
  | none => none
  | some (is_c, chatPart, msgId) =>
      if is_c then
        match pyInt chatPart with
        | none => none
        | some internal =>
            match pyInt ('-' :: '1' :: '0' :: '0' :: intToStr internal) with
            | none => none
            | some cid => some (ChatRef.id cid, msgId)
      else some (ChatRef.handle (String.mk chatPart), msgId)

/-- `TargetPair` from `main.py`. -/
structure TargetPair where
  target_a : Option ChatRef := none
  target_list : Option ChatRef := none
  a_start : Option String := none
  a_end : Option String := none
deriving DecidableEq, Repr

/-- `State` from `main.py`.  The `targets` dict always holds exactly the keys
`1` and `2` (created by the default factory and never added to or removed
from), so it is embedded as two fields. -/
structure State where
  source_x : Option ChatRef := none
  x_start : Option String := none
  x_end : Option String := none
  targets1 : TargetPair := {}
  targets2 : TargetPair := {}
  waiting_for : Option String := none
deriving DecidableEq, Repr

/-- The freshly-initialized state `State()`. -/
def State.init : State := {}

/-- `STATE.targets[n]` for `n ∈ {1, 2}`. -/
def State.target (s : State) (n : Nat) : TargetPair :=
  if n = 1 then s.targets1 else s.targets2

/-- `cmd_reset` from `main.py`: rebind the global `STATE` to `State()`,
whatever it held. -/
def cmd_reset (_s : State) : State := State.init

/-- The state mutation performed by `cmd_setlist` for `/setlist n ref`:
targets other than 1 and 2 are rejected with a reply and no mutation; a
`normalize_chat_ref` exception likewise leaves the state unchanged. -/
def cmd_setlist (n : Nat) (arg : String) (s : State) : State :=
  if n = 1 then
    match normalize_chat_ref arg with
    | some r => { s with targets1 := { s.targets1 with target_list := some r } }
    | none => s
  else if n = 2 then
    match normalize_chat_ref arg with
    | some r => { s with targets2 := { s.targets2 with target_list := some r } }
    | none => s
  else s

/-- Python truthiness of an `Optional[ChatRef]` (`if not STATE.source_x`):
`None`, the integer `0` and the empty string are falsy. -/
def refTruthy : Option ChatRef → Bool
  | none => false
  | some (.id n) => n ≠ 0
  | some (.handle h) => h ≠ ""

/-- Python truthiness of an `Optional[str]`. -/
def strTruthy : Option String → Bool
  | none => false
  | some t => t ≠ ""

/-- The message shape the engine consumes: id, photo flag, the platform's
empty/deleted flag, optional caption. -/
structure Msg where
  id : Nat
  photo : Bool
  isEmpty : Bool
  caption : Option String
deriving DecidableEq, Repr

/-- Remote message store: chat id and message id to the fetched message;
`none` when the platform returns nothing for that id. -/
abbrev Fetch : Type := Int → Nat → Option Msg

/-- The bases `range(lo, hi + 1, chunk)` iterated by `iter_range` (for
`chunk > 0`; Python raises on a zero step). -/
def iterBases (lo hi chunk : Nat) : List Nat :=
  if lo ≤ hi then (List.range ((hi - lo) / chunk + 1)).map (fun i => lo + chunk * i)
  else []

/-- The id batches `list(range(base, min(base + chunk, hi + 1)))` that
`iter_range` requests from `get_messages`, one list per `await`. -/
def iter_range_requests (start_id end_id chunk : Nat) : List (List Nat) :=
  let lo := min start_id end_id
  let hi := max start_id end_id
  (iterBases lo hi chunk).map (fun base => List.range' base (min (base + chunk) (hi + 1) - base))

/-- The `if m and not m.empty: yield m` filter of `iter_range` over a list of
requested ids. -/
def yieldMsgs (fetch : Fetch) (chat : Int) (ids : List Nat) : List Msg :=
  ids.filterMap (fun i =>
    match fetch chat i with
    | some m => if m.isEmpty then none else some m
    | none => none)

/-- `iter_range` from `main.py`: the sequence of messages yielded over the
inclusive range between the two endpoints, in request order. -/
def iter_range (fetch : Fetch) (chat : Int) (start_id end_id chunk : Nat) : List Msg :=
  yieldMsgs fetch chat (iter_range_requests start_id end_id chunk).flatten

/-- A concrete message store used as a test fixture: every id except 3
resolves to a non-empty photo message carrying its own id. -/
def fetchW : Fetch := fun _ i =>
  if i = 3 then none else some { id := i, photo := true, isEmpty := false, caption := none }

/-- A caption index: Python's insertion-ordered `dict` as an association
list with unique keys; `idx.get(key)` is `List.lookup`. -/
abbrev CaptionIndex : Type := List (String × Nat)

/-- One step of `build_index_for_target`'s loop: skip non-photos, skip empty
keys, insert only when the key is absent. -/
def indexInsert (idx : CaptionIndex) (m : Msg) : CaptionIndex :=
  if m.photo then
    let key := clean_caption (m.caption.getD "")
    if key ≠ "" ∧ (List.lookup key idx).isNone then idx ++ [(key, m.id)] else idx
  else idx

/-- `build_index_for_target` from `main.py`. -/
def build_index_for_target (fetch : Fetch) (chat_a : Int) (start_a end_a chunk : Nat) :
    CaptionIndex :=
  (iter_range fetch chat_a start_a end_a chunk).foldl indexInsert []

/-- Result of one `copy_message` call: success, `FloodWait(secs)`, or any
other platform failure. -/
inductive CopyRes where
  | ok
  | floodWait (secs : Nat)
  | failure
deriving DecidableEq, Repr

/-- Observable actions of the relay phase, in order. -/
inductive Event where
  /-- `idx.get(key)` consulted for target `n`. -/
  | lookupKey (n : Nat) (key : String)
  /-- `get_messages(chat_a, a_mid)` for the indexed hit. -/
  | fetchIndexed (chat : Int) (mid : Nat)
  /-- One `copy_message(to_chat, from_chat, msg_id, caption=...)` call. -/
  | copyAttempt (dest : Option ChatRef) (fromChat : Int) (mid : Nat) (caption : String)
  /-- The `asyncio.sleep(e.value)` backoff inside `safe_copy`. -/
  | sleepSecs (n : Nat)
  /-- The `asyncio.sleep(Config.DELAY_SECONDS)` per-send throttle. -/
  | throttle
deriving DecidableEq, Repr

/-- Abort cause of a run: an exception escaping the relay loop. -/
inductive RunError where
  /-- A second `FloodWait` raised by the retry inside `safe_copy`. -/
  | flood (secs : Nat)
  /-- Any other exception from `copy_message`. -/
  | failure
deriving DecidableEq, Repr

/-- `safe_copy` from `main.py`, with the remote call sequenced by a global
attempt counter `k` into the oracle `copyO`: one call; on `FloodWait n`,
sleep `n` and call once more, any exception of the second call escaping.
Returns the emitted events, the next attempt counter, and the escaping
error if any. -/
def safe_copy (copyO : Nat → CopyRes) (k : Nat) (dest : Option ChatRef)
    (fromChat : Int) (mid : Nat) (cap : String) :
    List Event × Nat × Option RunError :=
  match copyO k with
  | .ok => ([.copyAttempt dest fromChat mid cap], k + 1, none)
  | .floodWait n =>
      match copyO (k + 1) with
      | .ok => ([.copyAttempt dest fromChat mid cap, .sleepSecs n,
                 .copyAttempt dest fromChat mid cap], k + 2, none)
      | .floodWait m => ([.copyAttempt dest fromChat mid cap, .sleepSecs n,
                          .copyAttempt dest fromChat mid cap], k + 2, some (.flood m))
      | .failure => ([.copyAttempt dest fromChat mid cap, .sleepSecs n,
                      .copyAttempt dest fromChat mid cap], k + 2, some .failure)
  | .failure => ([.copyAttempt dest fromChat mid cap], k + 1, some .failure)

/-- The per-run counters of `cmd_run` (`processed_x`, `total_sent`,
`total_not_found`). -/
structure Counters where
  processed : Nat := 0
  sent1 : Nat := 0
  sent2 : Nat := 0
  nf1 : Nat := 0
  nf2 : Nat := 0
deriving DecidableEq, Repr

def Counters.bumpNF (c : Counters) (n : Nat) : Counters :=
  if n = 1 then { c with nf1 := c.nf1 + 1 } else { c with nf2 := c.nf2 + 1 }

def Counters.bumpSent (c : Counters) (n : Nat) : Counters :=
  if n = 1 then { c with sent1 := c.sent1 + 1 } else { c with sent2 := c.sent2 + 1 }

/-- The snapshot context of the relay loop: everything `cmd_run` computed
before the loop (resolved chat ids, usernames, per-target indexes) plus the
remote oracles. -/
structure RunCtx where
  fetch : Fetch
  copyO : Nat → CopyRes
  chatA : Nat → Int
  username : Nat → Option String
  index : Nat → CaptionIndex

/-- The Python string append `(a_caption + f"\n\n🔗 Link: {link}").strip()`
with `a_caption = (a_msg.caption or "").strip()`. -/
def finalCaption (acap : Option String) (link : String) : String :=
  String.mk (pyStrip (String.mk (pyStrip (acap.getD "").toList) ++ "\n\n🔗 Link: " ++ link).toList)

/-- The body of the target loop of `cmd_run` for one target `n` and one
source caption key; `dest` is `STATE.targets[n].target_list` as read live
from the global state at this iteration. -/
def targetStep (ctx : RunCtx) (dest : Option ChatRef) (n : Nat) (key : String)
    (k : Nat) (c : Counters) : List Event × Nat × Counters × Option RunError :=
  match List.lookup key (ctx.index n) with
  | none => ([.lookupKey n key], k, c.bumpNF n, none)
  | some mid =>
      if mid = 0 then ([.lookupKey n key], k, c.bumpNF n, none)
      else
        match ctx.fetch (ctx.chatA n) mid with
        | none => ([.lookupKey n key, .fetchIndexed (ctx.chatA n) mid], k, c.bumpNF n, none)
        | some am =>
            if am.isEmpty ∨ ¬ am.photo then
              ([.lookupKey n key, .fetchIndexed (ctx.chatA n) mid], k, c.bumpNF n, none)
            else
              let link := make_post_link (ctx.username n) (ctx.chatA n) mid
              let cap := finalCaption am.caption link
              let r := safe_copy ctx.copyO k dest (ctx.chatA n) mid cap
              match r.2.2 with
              | some e => ([.lookupKey n key, .fetchIndexed (ctx.chatA n) mid] ++ r.1,
                           r.2.1, c, some e)
              | none => ([.lookupKey n key, .fetchIndexed (ctx.chatA n) mid] ++ r.1 ++ [.throttle],
                         r.2.1, (c.bumpSent n), none)

/-- Processing of one source message by the relay loop of `cmd_run`:
non-photos are skipped without counting; `processed_x` is incremented, the
key computed, empty keys skipped; then targets 1 and 2 in order, an abort in
target 1 skipping target 2.  `live n` is `STATE.targets[n].target_list` as
read from the global state while this message is processed. -/
def msgStep (ctx : RunCtx) (live : Nat → Option ChatRef) (k : Nat) (c : Counters)
    (m : Msg) : List Event × Nat × Counters × Option RunError :=
  if ¬ m.photo then ([], k, c, none)
  else
    let c := { c with processed := c.processed + 1 }
    let key := clean_caption (m.caption.getD "")
    if key = "" then ([], k, c, none)
    else
      let r1 := targetStep ctx (live 1) 1 key k c
      match r1.2.2.2 with
      | some e => (r1.1, r1.2.1, r1.2.2.1, some e)
      | none =>
          let r2 := targetStep ctx (live 2) 2 key r1.2.1 r1.2.2.1
          (r1.1 ++ r2.1, r2.2.1, r2.2.2.1, r2.2.2.2)

/-- The relay loop of `cmd_run` over the scanned source messages.  `i` is the
index of the current source message in the scan; `liveAt i n` is the live
read of `STATE.targets[n].target_list` during message `i`.  An abort stops
the loop; later messages contribute nothing. -/
def runMsgs (ctx : RunCtx) (liveAt : Nat → Nat → Option ChatRef) :
    List Msg → Nat → Nat → Counters → List Event × Counters × Option RunError
  | [], _, _, c => ([], c, none)
  | m :: rest, i, k, c =>
      let r := msgStep ctx (liveAt i) k c m
      match r.2.2.2 with
      | some e => (r.1, r.2.2.1, some e)
      | none =>
          let rr := runMsgs ctx liveAt rest (i + 1) r.2.1 r.2.2.1
          (r.1 ++ rr.1, rr.2)

/-- Abort causes of `cmd_run` before the relay loop: a reply-and-return for a
missing configuration field, or a link parse failure for the source range or
a target range. -/
inductive ParseFail where
  | configMissing
  | xLinkErr
  | aLinkErr (n : Nat)
deriving DecidableEq, Repr

/-- The validation and link-parsing prefix of `cmd_run` (its lines up to the
construction of `target_specs`): check all fields truthy, then parse the two
source links and the two links of each target, keeping only the message-id
component of every parsed link (the chat component is bound to `_`). -/
def cmd_run_parse (s : State) : Except ParseFail (Nat × Nat × (Nat × Nat) × (Nat × Nat)) := do
  if ¬ (refTruthy s.source_x) then throw .configMissing
  else if ¬ (strTruthy s.x_start ∧ strTruthy s.x_end) then throw .configMissing
  else if ¬ (refTruthy s.targets1.target_a ∧ refTruthy s.targets1.target_list) then
    throw .configMissing
  else if ¬ (strTruthy s.targets1.a_start ∧ strTruthy s.targets1.a_end) then
    throw .configMissing
  else if ¬ (refTruthy s.targets2.target_a ∧ refTruthy s.targets2.target_list) then
    throw .configMissing
  else if ¬ (strTruthy s.targets2.a_start ∧ strTruthy s.targets2.a_end) then
    throw .configMissing
  else
    match parse_tme_link (s.x_start.getD ""), parse_tme_link (s.x_end.getD "") with
    | some xs, some xe =>
        match parse_tme_link (s.targets1.a_start.getD ""),
              parse_tme_link (s.targets1.a_end.getD "") with
        | some a1s, some a1e =>
            match parse_tme_link (s.targets2.a_start.getD ""),
                  parse_tme_link (s.targets2.a_end.getD "") with
            | some a2s, some a2e =>
                pure (xs.2, xe.2, (a1s.2, a1e.2), (a2s.2, a2e.2))
            | _, _ => throw (.aLinkErr 2)
        | _, _ => throw (.aLinkErr 1)
    | _, _ => throw .xLinkErr

/-- The remote collaborators `cmd_run` consults outside the relay loop:
chat-reference resolution, username lookup, the message store and the copy
oracle. -/
structure Remote where
  resolve : ChatRef → Int
  username : Int → Option String
  fetch : Fetch
  copyO : Nat → CopyRes

/-- `cmd_run` end to end, with every live read of the mutable global state
given its own read point.  Validation, link parsing and the `STATE.source_x`
argument of source resolution are evaluated at handler entry with no
intervening suspension: all from `stateAt 0`.  The pre-loop target loop
re-reads `STATE.targets[n].target_a` live: target 1 at read point 1 (after
the source-resolution and reply awaits) and target 2 at read point 2 (after
target 1's resolution, username lookup and index build).  The relay loop
re-reads `STATE.targets[n].target_list` live at each source message `i` and
target `n`: read point `3 + 2 * i + (n - 1)`.  Consecutive read points are
separated by at least one await in the source, so `stateAt k` is the global
state as mutated by whatever handlers ran before read point `k`; reads not
separated by an await share a read point. -/
def cmd_run_model (r : Remote) (stateAt : Nat → State) :
    Except ParseFail (List Event × Counters × Option RunError) := do
  let s := stateAt 0
  let ids ← cmd_run_parse s
  let chatX := r.resolve ((s.source_x).getD (ChatRef.id 0))
  let chat1 := r.resolve (((stateAt 1).targets1.target_a).getD (ChatRef.id 0))
  let chat2 := r.resolve (((stateAt 2).targets2.target_a).getD (ChatRef.id 0))
  let ctx : RunCtx :=
    { fetch := r.fetch
      copyO := r.copyO
      chatA := fun n => if n = 1 then chat1 else chat2
      username := fun n => if n = 1 then r.username chat1 else r.username chat2
      index := fun n =>
        if n = 1 then build_index_for_target r.fetch chat1 ids.2.2.1.1 ids.2.2.1.2 200
        else build_index_for_target r.fetch chat2 ids.2.2.2.1 ids.2.2.2.2 200 }
  let msgs := iter_range r.fetch chatX ids.1 ids.2.1 200
  pure (runMsgs ctx (fun i n => ((stateAt (3 + 2 * i + (n - 1))).target n).target_list)
    msgs 0 0 {})

/-- A concrete message store for the index-builder witness: ids 10–13 where
11 is not a photo and 12 repeats the caption of 10 up to case and spacing. -/
def fetchIdx : Fetch := fun _ i =>
  some { id := i, photo := i ≠ 11, isEmpty := false,
         caption := if i = 12 then some "Sunset  View" else some "sunset view" }

/-- A run context whose remote store is empty and whose indexes are empty —
sufficient for messages that never reach a lookup. -/
def ctxC1 : RunCtx :=
  { fetch := fun _ _ => none
    copyO := fun _ => .ok
    chatA := fun _ => 0
    username := fun _ => none
    index := fun _ => [] }

/-- A photo message whose caption consists only of a URL, so its normalized
caption key is empty. -/
def mEmptyCap : Msg :=
  { id := 1, photo := true, isEmpty := false, caption := some "http://x" }

/-- Copy oracle for the rate-limit witness: attempt 0 is rate-limited with 5
seconds, attempt 1 succeeds, attempts 2 and 3 are rate-limited with 9 and 4
seconds. -/
def copyOW : Nat → CopyRes := fun a =>
  if a = 0 then .floodWait 5 else if a = 1 then .ok
  else if a = 2 then .floodWait 9 else .floodWait 4

/-- Run context for the abort witness: source and target photos all carry
caption `k`, target 1's index maps `k` to id 50, and every copy attempt is
rate-limited (`copyOW` shifted past its successful attempt). -/
def ctxC3 : RunCtx :=
  { fetch := fun _ i => some { id := i, photo := true, isEmpty := false, caption := some "k" }
    copyO := fun a => copyOW (a + 2)
    chatA := fun _ => -100900
    username := fun _ => none
    index := fun n => if n = 1 then [("k", 50)] else [] }

/-- The source photo of the abort witness. -/
def mC3 : Msg := { id := 7, photo := true, isEmpty := false, caption := some "k" }

/-- Equality of `Except` results is decidable when both components' are. -/
instance exceptDecEq {E A : Type} [DecidableEq E] [DecidableEq A] :
    DecidableEq (Except E A) := fun a b =>
  match a, b with
  | .error e₁, .error e₂ =>
      if h : e₁ = e₂ then isTrue (by rw [h])
      else isFalse (fun hc => by cases hc; exact h rfl)
  | .ok x, .ok y =>
      if h : x = y then isTrue (by rw [h])
      else isFalse (fun hc => by cases hc; exact h rfl)
  | .error _, .ok _ => isFalse (fun hc => Except.noConfusion hc)
  | .ok _, .error _ => isFalse (fun hc => Except.noConfusion hc)

/-- A fully configured state: source `src` over message ids 1–2, target 1
(`a1`, destination `l1`) indexing id 50, target 2 (`a2`, destination `l2`)
indexing id 60. -/
def sC2 : State :=
  { source_x := some (.handle "src")
    x_start := some "t.me/src/1"
    x_end := some "t.me/src/2"
    targets1 := { target_a := some (.handle "a1"), target_list := some (.handle "l1"),
                  a_start := some "t.me/a1/50", a_end := some "t.me/a1/50" }
    targets2 := { target_a := some (.handle "a2"), target_list := some (.handle "l2"),
                  a_start := some "t.me/a2/60", a_end := some "t.me/a2/60" }
    waiting_for := none }

/-- Remote collaborators for the configuration-read claims: `src`, `a1`,
`a2` resolve to chats 10, 11, 12; chats 10 and 11 serve photos captioned
`k`, chat 12 photos captioned `z`; every copy succeeds. -/
def remC2 : Remote :=
  { resolve := fun r =>
      match r with
      | .handle "src" => 10
      | .handle "a1" => 11
      | .handle "a2" => 12
      | .id n => n
      | _ => 0
    username := fun _ => none
    fetch := fun chat i =>
      if chat = 10 ∨ chat = 11 then
        some { id := i, photo := true, isEmpty := false, caption := some "k" }
      else some { id := i, photo := true, isEmpty := false, caption := some "z" }
    copyO := fun _ => .ok }

/-- A fully configured state whose source range starts at the private link
`t.me/c/123/5`. -/
def sL1 : State :=
  { source_x := some (.handle "s")
    x_start := some "t.me/c/123/5"
    x_end := some "t.me/s/6"
    targets1 := { target_a := some (.handle "b1"), target_list := some (.handle "d1"),
                  a_start := some "t.me/b1/70", a_end := some "t.me/b1/70" }
    targets2 := { target_a := some (.handle "b2"), target_list := some (.handle "d2"),
                  a_start := some "t.me/b2/80", a_end := some "t.me/b2/80" }
    waiting_for := none }

/-- `sL1` with only the channel portion of the first source link changed, to
a non-numeric private channel part carrying the same message id. -/
def sL2 : State := { sL1 with x_start := some "t.me/c/abc/5" }

/-- `sL1` with only the channel portion of the first source link changed, to
a different numeric private channel carrying the same message id. -/
def sL3 : State := { sL1 with x_start := some "t.me/c/999/5" }

/-- A remote whose message store is empty (never consulted before parsing
finishes). -/
def remL : Remote :=
  { resolve := fun _ => 0
    username := fun _ => none
    fetch := fun _ _ => none
    copyO := fun _ => .ok }

theorem matchLen_nil : matchLen [] = none := by decide

theorem matchLen_pos {s : List Char} {l : Nat} (h : matchLen s = some l) :
    0 < l := by
  unfold matchLen at h
  rcases hf : urlPats.find? (fun p => isCIPre p s) with _ | p <;> rw [hf] at h
  · exact absurd h (by simp)
  · simp only [] at h
    split at h
    · exact absurd h (by simp)
    · cases h; omega

theorem matchLen_ne_nil {s : List Char} {l : Nat} (h : matchLen s = some l) :
    s ≠ [] := by
  intro he; rw [he, matchLen_nil] at h; exact absurd h (by simp)

theorem length_dropWhile_le' (p : α → Bool) (l : List α) :
    (l.dropWhile p).length ≤ l.length := by
  induction l with
  | nil => simp [List.dropWhile]
  | cons a t ih =>
      by_cases h : p a
      · rw [List.dropWhile_cons_of_pos h]; exact Nat.le_succ_of_le ih
      · rw [List.dropWhile_cons_of_neg h]

theorem urlSubGo_nil : ∀ f, urlSubGo f [] = []
  | 0 => rfl
  | _ + 1 => rfl

theorem urlSubGo_congr : ∀ (f₁ f₂ : Nat) (s : List Char),
    s.length ≤ f₁ → s.length ≤ f₂ → urlSubGo f₁ s = urlSubGo f₂ s := by
  intro f₁
  induction f₁ using Nat.strong_induction_on with
  | _ f₁ ih =>
    intro f₂ s h₁ h₂
    cases s with
    | nil => rw [urlSubGo_nil, urlSubGo_nil]
    | cons c cs =>
      cases f₁ with
      | zero => simp at h₁
      | succ f =>
        cases f₂ with
        | zero => simp at h₂
        | succ g =>
          simp only [urlSubGo]
          cases hm : matchLen (c :: cs) with
          | some l =>
              have hp := matchLen_pos hm
              have hlen : ((c :: cs).drop l).length ≤ f := by
                simp only [List.length_drop, List.length_cons]
                simp only [List.length_cons] at h₁; omega
              have hlen2 : ((c :: cs).drop l).length ≤ g := by
                simp only [List.length_drop, List.length_cons]
                simp only [List.length_cons] at h₂; omega
              exact ih f (by omega) g _ hlen hlen2
          | none =>
              have hf : cs.length ≤ f := by simp at h₁; omega
              have hg : cs.length ≤ g := by simp at h₂; omega
              exact congrArg (c :: ·) (ih f (by omega) g cs hf hg)

theorem urlSub_nil : urlSub [] = [] := rfl

theorem urlSub_eq_del {s : List Char} {l : Nat} (h : matchLen s = some l) :
    urlSub s = urlSub (s.drop l) := by
  obtain ⟨c, cs, rfl⟩ : ∃ c cs, s = c :: cs := by
    cases s with
    | nil => exact absurd h (by rw [matchLen_nil]; simp)
    | cons c cs => exact ⟨c, cs, rfl⟩
  show urlSubGo (c :: cs).length (c :: cs) = _
  rw [show (c :: cs).length = cs.length + 1 from rfl]
  simp only [urlSubGo, h]
  have hp := matchLen_pos h
  exact urlSubGo_congr _ _ _ (by simp; omega) (by simp)

theorem urlSub_eq_cons {c : Char} {cs : List Char}
    (h : matchLen (c :: cs) = none) : urlSub (c :: cs) = c :: urlSub cs := by
  show urlSubGo (c :: cs).length (c :: cs) = _
  rw [show (c :: cs).length = cs.length + 1 from rfl]
  simp only [urlSubGo, h]
  rfl

theorem collapseWsGo_nil : ∀ f, collapseWsGo f [] = []
  | 0 => rfl
  | _ + 1 => rfl

theorem collapseWsGo_congr : ∀ (f₁ f₂ : Nat) (s : List Char),
    s.length ≤ f₁ → s.length ≤ f₂ → collapseWsGo f₁ s = collapseWsGo f₂ s := by
  intro f₁
  induction f₁ using Nat.strong_induction_on with
  | _ f₁ ih =>
    intro f₂ s h₁ h₂
    cases s with
    | nil => rw [collapseWsGo_nil, collapseWsGo_nil]
    | cons c cs =>
      cases f₁ with
      | zero => simp at h₁
      | succ f =>
        cases f₂ with
        | zero => simp at h₂
        | succ g =>
          simp only [collapseWsGo]
          by_cases hc : isPySpace c
          · simp only [hc, if_true]
            have hd := length_dropWhile_le' isPySpace cs
            have hf : (cs.dropWhile isPySpace).length ≤ f := by simp at h₁; omega
            have hg : (cs.dropWhile isPySpace).length ≤ g := by simp at h₂; omega
            exact congrArg (' ' :: ·) (ih f (by omega) g _ hf hg)
          · simp only [hc, if_false]
            have hf : cs.length ≤ f := by simp at h₁; omega
            have hg : cs.length ≤ g := by simp at h₂; omega
            exact congrArg (c :: ·) (ih f (by omega) g cs hf hg)

theorem collapseWs_nil : collapseWs [] = [] := rfl

theorem collapseWs_eq_space {c : Char} {cs : List Char} (h : isPySpace c) :
    collapseWs (c :: cs) = ' ' :: collapseWs (cs.dropWhile isPySpace) := by
  show collapseWsGo (cs.length + 1) (c :: cs) = _
  simp only [collapseWsGo, h, if_true]
  exact congrArg (' ' :: ·)
    (collapseWsGo_congr _ _ _ (length_dropWhile_le' _ _) le_rfl)

theorem collapseWs_eq_cons {c : Char} {cs : List Char} (h : ¬ isPySpace c) :
    collapseWs (c :: cs) = c :: collapseWs cs := by
  show collapseWsGo (cs.length + 1) (c :: cs) = _
  simp only [collapseWsGo, h, if_false]
  rfl

/-! ## Character-level lemmas -/

theorem char_eq_iff_toNat {a b : Char} : a = b ↔ a.toNat = b.toNat :=
  ⟨fun h => h ▸ rfl, fun h => Char.eq_of_val_eq (UInt32.ext h)⟩

theorem char_toNat_ofNat {n : Nat} (h : n.isValidChar) : (Char.ofNat n).toNat = n := by
  simp [Char.ofNat, h, Char.ofNatAux, Char.toNat, UInt32.toNat, BitVec.toNat_ofNatLt]

theorem toLower_eq (c : Char) :
    c.toLower = if c.toNat ≥ 65 ∧ c.toNat ≤ 90 then Char.ofNat (c.toNat + 32) else c := rfl

theorem toLower_toNat (c : Char) :
    (c.toLower).toNat = if c.toNat ≥ 65 ∧ c.toNat ≤ 90 then c.toNat + 32 else c.toNat := by
  rw [toLower_eq]
  by_cases h : c.toNat ≥ 65 ∧ c.toNat ≤ 90
  · rw [if_pos h, if_pos h, char_toNat_ofNat (Or.inl (by omega))]
  · rw [if_neg h, if_neg h]

theorem toLower_toLower (c : Char) : (c.toLower).toLower = c.toLower := by
  rw [toLower_eq c, toLower_eq]
  by_cases h : c.toNat ≥ 65 ∧ c.toNat ≤ 90
  · rw [if_pos h]
    rw [char_toNat_ofNat (n := c.toNat + 32) (Or.inl (by omega))]
    rw [if_neg (by omega)]
  · rw [if_neg h, if_neg h]

theorem isPySpace_iff_toNat {c : Char} :
    isPySpace c = true ↔
      c.toNat = 32 ∨ c.toNat = 9 ∨ c.toNat = 10 ∨ c.toNat = 11 ∨ c.toNat = 12 ∨
      c.toNat = 13 ∨ c.toNat = 28 ∨ c.toNat = 29 ∨ c.toNat = 30 ∨ c.toNat = 31 := by
  simp only [isPySpace, Bool.or_eq_true, decide_eq_true_eq, char_eq_iff_toNat]
  have e1 : (' ').toNat = 32 := rfl
  have e2 : ('\t').toNat = 9 := rfl
  have e3 : ('\n').toNat = 10 := rfl
  have e4 : ('\x0b').toNat = 11 := rfl
  have e5 : ('\x0c').toNat = 12 := rfl
  have e6 : ('\r').toNat = 13 := rfl
  have e7 : ('\x1c').toNat = 28 := rfl
  have e8 : ('\x1d').toNat = 29 := rfl
  have e9 : ('\x1e').toNat = 30 := rfl
  have e10 : ('\x1f').toNat = 31 := rfl
  rw [e1, e2, e3, e4, e5, e6, e7, e8, e9, e10]
  tauto

theorem isPySpace_toLower (c : Char) : isPySpace c.toLower = isPySpace c := by
  by_cases h : isPySpace c = true
  · have hn := isPySpace_iff_toNat.mp h
    have : c.toLower = c := by
      rw [toLower_eq, if_neg (by omega)]
    rw [this]
  · by_cases hr : c.toNat ≥ 65 ∧ c.toNat ≤ 90
    · have h1 : isPySpace c.toLower = false := by
        rw [Bool.eq_false_iff]
        intro hc
        have := isPySpace_iff_toNat.mp hc
        rw [toLower_toNat, if_pos hr] at this
        omega
      rw [h1, Bool.eq_false_iff.mpr h]
    · rw [toLower_eq, if_neg hr]

/-! ## The URL matcher as a function of the head non-whitespace run -/

theorem listPreB_iff_take {l₁ l₂ : List Char} :
    listPreB l₁ l₂ = true ↔ l₂.take l₁.length = l₁ := by
  induction l₁ generalizing l₂ with
  | nil => simp [listPreB]
  | cons a t ih =>
    cases l₂ with
    | nil => simp [listPreB]
    | cons b u =>
      simp only [listPreB, Bool.and_eq_true, decide_eq_true_eq, List.length_cons,
        List.take_succ_cons, List.cons.injEq, ih]
      constructor
      · rintro ⟨h1, h2⟩; exact ⟨h1.symm, h2⟩
      · rintro ⟨h1, h2⟩; exact ⟨h1.symm, h2⟩

theorem listPreB_length_le {l₁ l₂ : List Char} (h : listPreB l₁ l₂ = true) :
    l₁.length ≤ l₂.length := by
  induction l₁ generalizing l₂ with
  | nil => simp
  | cons a t ih =>
    cases l₂ with
    | nil => exact absurd h (by simp [listPreB])
    | cons b u =>
      simp only [listPreB, Bool.and_eq_true] at h
      simpa using ih h.2

theorem listPreB_nil (l : List Char) : listPreB [] l = true := rfl

theorem listPreB_cons₂ {l₁ l₂ : List Char} (c : Char) (h : listPreB l₁ l₂ = true) :
    listPreB (c :: l₁) (c :: l₂) = true := by
  simp [listPreB, h]

theorem listPreB_nil_right {l : List Char} (h : listPreB l [] = true) : l = [] := by
  cases l with
  | nil => rfl
  | cons a t => exact absurd h (by simp [listPreB])

theorem isCIPre_iff (p u : List Char) :
    isCIPre p u = true ↔ p.length ≤ u.length ∧ (u.take p.length).map Char.toLower = p := by
  induction p generalizing u with
  | nil => simp [isCIPre]
  | cons p₀ ps ih =>
    cases u with
    | nil => simp [isCIPre]
    | cons c cs =>
      simp only [isCIPre, Bool.and_eq_true, decide_eq_true_eq, ih, List.length_cons,
        List.take_succ_cons, List.map_cons, List.cons.injEq]
      constructor
      · rintro ⟨h1, h2, h3⟩
        exact ⟨by omega, h1, h3⟩
      · rintro ⟨h1, h2, h3⟩
        exact ⟨h2, by omega, h3⟩

theorem urlPats_nonspace : ∀ p ∈ urlPats, ∀ c ∈ p, isPySpace c = false := by decide

theorem headRun_nil : headRun [] = [] := rfl

theorem headRun_cons_space {c : Char} {cs : List Char} (h : isPySpace c = true) :
    headRun (c :: cs) = [] := by
  simp [headRun, h]

theorem headRun_cons_nonspace {c : Char} {cs : List Char} (h : isPySpace c = false) :
    headRun (c :: cs) = c :: headRun cs := by
  simp [headRun, h]

theorem isCIPre_headRun {p : List Char} (hp : ∀ c ∈ p, isPySpace c = false) :
    ∀ u, isCIPre p u = isCIPre p (headRun u) := by
  induction p with
  | nil => intro u; rfl
  | cons p₀ ps ih =>
    intro u
    cases u with
    | nil => rfl
    | cons c cs =>
      by_cases hc : isPySpace c = true
      · rw [headRun_cons_space hc]
        have h2 : ¬ (c.toLower = p₀) := by
          intro he
          have h3 : isPySpace p₀ = false := hp p₀ (by simp)
          rw [← he, isPySpace_toLower, hc] at h3
          exact absurd h3 (by simp)
        simp [isCIPre, h2]
      · rw [headRun_cons_nonspace (by simpa using hc)]
        simp only [isCIPre]
        rw [ih (fun x hx => hp x (by simp [hx])) cs]

theorem headRun_split {p : List Char} (hp : ∀ c ∈ p, isPySpace c = false) :
    ∀ u, isCIPre p u = true → headRun u = u.take p.length ++ headRun (u.drop p.length) := by
  induction p with
  | nil => intro u _; simp
  | cons p₀ ps ih =>
    intro u h
    cases u with
    | nil => exact absurd h (by simp [isCIPre])
    | cons c cs =>
      simp only [isCIPre, Bool.and_eq_true, decide_eq_true_eq] at h
      obtain ⟨h1, h2⟩ := h
      have hc : isPySpace c = false := by
        have h3 : isPySpace p₀ = false := hp p₀ (by simp)
        rw [← h1, isPySpace_toLower] at h3
        exact h3
      rw [headRun_cons_nonspace hc, List.length_cons, List.take_succ_cons,
        List.drop_succ_cons, List.cons_append,
        ih (fun x hx => hp x (by simp [hx])) cs h2]

theorem isCIPre_of_pre {p r' r : List Char} (hpre : listPreB r' r = true)
    (h : isCIPre p r' = true) : isCIPre p r = true := by
  rw [isCIPre_iff] at h ⊢
  obtain ⟨hl, ht⟩ := h
  have hlen := listPreB_length_le hpre
  have htk := listPreB_iff_take.mp hpre
  refine ⟨by omega, ?_⟩
  have hpr : r'.take p.length = r.take p.length := by
    rw [← htk, List.take_take]
    congr 1
    omega
  rw [← hpr]
  exact ht

theorem urlPats_no_pre : ∀ p ∈ urlPats, ∀ q ∈ urlPats, listPreB p q = true → p = q := by
  decide

theorem urlPats_unique {p q r : List Char} (hp : p ∈ urlPats) (hq : q ∈ urlPats)
    (h1 : isCIPre p r = true) (h2 : isCIPre q r = true) : p = q := by
  have key : ∀ a b : List Char, a ∈ urlPats → b ∈ urlPats → a.length ≤ b.length →
      isCIPre a r = true → isCIPre b r = true → a = b := by
    intro a b ha hb hab h1 h2
    rw [isCIPre_iff] at h1 h2
    apply urlPats_no_pre a ha b hb
    rw [listPreB_iff_take, ← h2.2, ← List.map_take, List.take_take,
      Nat.min_eq_left hab, h1.2]
  rcases Nat.le_total p.length q.length with hle | hle
  · exact key p q hp hq hle h1 h2
  · exact (key q p hq hp hle h2 h1).symm

theorem find?_congr_local {α : Type} (l : List α) (f g : α → Bool)
    (h : ∀ a ∈ l, f a = g a) : l.find? f = l.find? g := by
  induction l with
  | nil => rfl
  | cons a t ih =>
    have ha := h a (by simp)
    rcases hg : g a with _ | _
    · rw [List.find?_cons_of_neg _ (by simp [ha, hg]), List.find?_cons_of_neg _ (by simp [hg])]
      exact ih (fun x hx => h x (by simp [hx]))
    · rw [List.find?_cons_of_pos _ (by simp [ha, hg]), List.find?_cons_of_pos _ (by simp [hg])]

theorem matchLen_eq_matchRun (u : List Char) : matchLen u = matchRun (headRun u) := by
  unfold matchLen matchRun
  have hfind : urlPats.find? (fun p => isCIPre p u) =
      urlPats.find? (fun p => isCIPre p (headRun u)) :=
    find?_congr_local _ _ _ (fun p hp => by rw [isCIPre_headRun (urlPats_nonspace p hp) u])
  rw [← hfind]
  cases hf : urlPats.find? (fun p => isCIPre p u) with
  | none => rfl
  | some p =>
    have hmem : p ∈ urlPats := List.mem_of_find?_eq_some hf
    have hpre : isCIPre p u = true := by
      have := List.find?_some hf
      simpa using this
    have hsplit := headRun_split (urlPats_nonspace p hmem) u hpre
    have hlen : p.length ≤ u.length := ((isCIPre_iff p u).mp hpre).1
    have hk : (u.drop p.length).takeWhile (fun c => !isPySpace c) =
        headRun (u.drop p.length) := rfl
    have hrun : (headRun u).length = p.length + (headRun (u.drop p.length)).length := by
      rw [hsplit, List.length_append, List.length_take, Nat.min_eq_left hlen]
    simp only [hk, hrun]
    by_cases hk0 : (headRun (u.drop p.length)).length = 0
    · simp [hk0]
    · rw [if_neg hk0, if_pos (by omega)]

theorem matchRun_nil : matchRun [] = none := by decide

theorem matchRun_find_some {r p : List Char}
    (hf : urlPats.find? (fun q => isCIPre q r) = some p) :
    matchRun r = if p.length < r.length then some r.length else none := by
  unfold matchRun
  rw [hf]

theorem matchRun_find_none {r : List Char}
    (hf : urlPats.find? (fun q => isCIPre q r) = none) : matchRun r = none := by
  unfold matchRun
  rw [hf]

theorem matchRun_pre_none {r' r : List Char} (hpre : listPreB r' r = true)
    (h : matchRun r = none) : matchRun r' = none := by
  rcases hf : urlPats.find? (fun p => isCIPre p r') with _ | p
  · exact matchRun_find_none hf
  · have hmem : p ∈ urlPats := List.mem_of_find?_eq_some hf
    have hp' : isCIPre p r' = true := by
      have := List.find?_some hf
      simpa using this
    rw [matchRun_find_some hf]
    by_cases hlt : p.length < r'.length
    · exfalso
      have hp : isCIPre p r = true := isCIPre_of_pre hpre hp'
      rcases hg : urlPats.find? (fun q => isCIPre q r) with _ | q
      · have hex : ∃ x, x ∈ urlPats ∧ isCIPre x r = true := ⟨p, hmem, hp⟩
        have hsome := List.find?_isSome.mpr hex
        rw [hg] at hsome
        exact absurd hsome (by simp)
      · have hqmem : q ∈ urlPats := List.mem_of_find?_eq_some hg
        have hq : isCIPre q r = true := by
          have := List.find?_some hg
          simpa using this
        have hpq : p = q := urlPats_unique hmem hqmem hp hq
        have hle := listPreB_length_le hpre
        rw [matchRun_find_some hg, if_pos (by rw [← hpq]; omega)] at h
        exact absurd h (by simp)
    · rw [if_neg hlt]

theorem dropWhile_eq_drop_len (p : α → Bool) (l : List α) :
    l.dropWhile p = l.drop (l.takeWhile p).length := by
  induction l with
  | nil => rfl
  | cons a t ih =>
    by_cases h : p a
    · rw [List.dropWhile_cons_of_pos h, List.takeWhile_cons_of_pos h, List.length_cons,
        List.drop_succ_cons, ih]
    · rw [List.dropWhile_cons_of_neg h, List.takeWhile_cons_of_neg h, List.length_nil,
        List.drop_zero]

theorem matchLen_some_elim {s : List Char} {l : Nat} (h : matchLen s = some l) :
    l = (headRun s).length ∧ s.drop l = s.dropWhile (fun c => !isPySpace c) := by
  rw [matchLen_eq_matchRun] at h
  rcases hf : urlPats.find? (fun p => isCIPre p (headRun s)) with _ | p
  · rw [matchRun_find_none hf] at h
    exact absurd h (by simp)
  · rw [matchRun_find_some hf] at h
    by_cases hlt : p.length < (headRun s).length
    · rw [if_pos hlt] at h
      obtain rfl : (headRun s).length = l := Option.some.inj h
      refine ⟨rfl, ?_⟩
      rw [show (headRun s).length = (s.takeWhile (fun c => !isPySpace c)).length from rfl,
        ← dropWhile_eq_drop_len]
    · rw [if_neg hlt] at h
      exact absurd h (by simp)

theorem headRun_dropWhile_nonspace (s : List Char) :
    headRun (s.dropWhile (fun c => !isPySpace c)) = [] := by
  cases hd : s.dropWhile (fun c => !isPySpace c) with
  | nil => rfl
  | cons c cs =>
    have h0 := List.head?_dropWhile_not (fun c => !isPySpace c) s
    rw [hd] at h0
    simp only [List.head?_cons] at h0
    apply headRun_cons_space
    simpa using h0

theorem headRun_urlSub : ∀ s : List Char, listPreB (headRun (urlSub s)) (headRun s) = true := by
  suffices H : ∀ n, ∀ s : List Char, s.length = n →
      listPreB (headRun (urlSub s)) (headRun s) = true by
    intro s; exact H s.length s rfl
  intro n
  induction n using Nat.strong_induction_on with
  | _ n ih =>
    intro s hn
    subst hn
    cases s with
    | nil => exact listPreB_nil _
    | cons c cs =>
      cases hm : matchLen (c :: cs) with
      | some l =>
          rw [urlSub_eq_del hm]
          obtain ⟨hlen, hdrop⟩ := matchLen_some_elim hm
          have hlt : ((c :: cs).drop l).length < (c :: cs).length := by
            have hp := matchLen_pos hm
            simp only [List.length_drop]
            simp only [List.length_cons]
            omega
          have := ih _ hlt ((c :: cs).drop l) rfl
          rw [hdrop] at this ⊢
          have hz := headRun_dropWhile_nonspace (c :: cs)
          rw [hz] at this
          rw [listPreB_nil_right this]
          exact listPreB_nil _
      | none =>
          rw [urlSub_eq_cons hm]
          by_cases hc : isPySpace c = true
          · rw [headRun_cons_space hc]
            exact listPreB_nil _
          · rw [headRun_cons_nonspace (by simpa using hc),
              headRun_cons_nonspace (by simpa using hc)]
            exact listPreB_cons₂ c (ih cs.length (by simp) cs rfl)

theorem noMatch_urlSub : ∀ s : List Char, noMatch (urlSub s) := by
  suffices H : ∀ n, ∀ s : List Char, s.length = n → noMatch (urlSub s) by
    intro s; exact H s.length s rfl
  intro n
  induction n using Nat.strong_induction_on with
  | _ n ih =>
    intro s hn
    subst hn
    cases s with
    | nil => intro i; simp [urlSub_nil, matchLen_nil]
    | cons c cs =>
      cases hm : matchLen (c :: cs) with
      | some l =>
          rw [urlSub_eq_del hm]
          have hlt : ((c :: cs).drop l).length < (c :: cs).length := by
            have hp := matchLen_pos hm
            simp only [List.length_drop, List.length_cons]
            omega
          exact ih _ hlt _ rfl
      | none =>
          rw [urlSub_eq_cons hm]
          intro i
          cases i with
          | succ j =>
              rw [List.drop_succ_cons]
              exact ih cs.length (by simp) cs rfl j
          | zero =>
              rw [List.drop_zero, matchLen_eq_matchRun]
              by_cases hc : isPySpace c = true
              · rw [headRun_cons_space hc, matchRun_nil]
              · rw [headRun_cons_nonspace (by simpa using hc)]
                apply matchRun_pre_none
                  (listPreB_cons₂ c (headRun_urlSub cs))
                rw [← headRun_cons_nonspace (by simpa using hc : isPySpace c = false),
                  ← matchLen_eq_matchRun]
                exact hm

/-! ## Match-freeness is preserved by the later pipeline stages -/

theorem headRun_append_space {w sp : List Char} (hsp : ∀ c ∈ sp, isPySpace c = true) :
    headRun (w ++ sp) = headRun w := by
  induction w with
  | nil =>
    cases sp with
    | nil => rfl
    | cons c cs =>
      rw [List.nil_append, headRun_cons_space (hsp c (by simp)), headRun_nil]
  | cons a t ih =>
    by_cases ha : isPySpace a = true
    · rw [List.cons_append, headRun_cons_space ha, headRun_cons_space ha]
    · rw [List.cons_append, headRun_cons_nonspace (by simpa using ha),
        headRun_cons_nonspace (by simpa using ha), ih]

theorem noMatch_nil : noMatch [] := by
  intro i; simp [matchLen_nil]

theorem mem_takeWhile_sat {p : α → Bool} {l : List α} {a : α}
    (h : a ∈ l.takeWhile p) : p a = true := by
  induction l with
  | nil => simp [List.takeWhile] at h
  | cons b t ih =>
    by_cases hb : p b
    · rw [List.takeWhile_cons_of_pos hb] at h
      rcases List.mem_cons.mp h with rfl | h2
      · exact hb
      · exact ih h2
    · rw [List.takeWhile_cons_of_neg hb] at h
      simp at h

theorem noMatch_drop {s : List Char} (h : noMatch s) (k : Nat) : noMatch (s.drop k) := by
  intro i
  rw [List.drop_drop, Nat.add_comm]
  exact h (i + k)

theorem noMatch_tail {c : Char} {cs : List Char} (h : noMatch (c :: cs)) : noMatch cs := by
  intro i
  have := h (i + 1)
  rwa [List.drop_succ_cons] at this

theorem noMatch_dropWhile {s : List Char} (h : noMatch s) (p : Char → Bool) :
    noMatch (s.dropWhile p) := by
  rw [dropWhile_eq_drop_len]
  exact noMatch_drop h _

theorem noMatch_append_space {w sp : List Char} (hsp : ∀ c ∈ sp, isPySpace c = true)
    (h : noMatch (w ++ sp)) : noMatch w := by
  intro i
  by_cases hi : i ≤ w.length
  · have h1 := h i
    rw [List.drop_append_eq_append_drop, Nat.sub_eq_zero_of_le hi, List.drop_zero] at h1
    rw [matchLen_eq_matchRun] at h1 ⊢
    rwa [headRun_append_space hsp] at h1
  · rw [List.drop_of_length_le (by omega), matchLen_nil]

theorem rstrip_split (a : List Char) :
    ∃ sp, (∀ c ∈ sp, isPySpace c = true) ∧
      a = (a.reverse.dropWhile isPySpace).reverse ++ sp := by
  refine ⟨(a.reverse.takeWhile isPySpace).reverse, ?_, ?_⟩
  · intro c hc
    rw [List.mem_reverse] at hc
    exact mem_takeWhile_sat hc
  · conv_lhs => rw [← List.reverse_reverse a,
      ← List.takeWhile_append_dropWhile isPySpace a.reverse]
    rw [List.reverse_append]

theorem noMatch_pyStrip {l : List Char} (h : noMatch l) : noMatch (pyStrip l) := by
  unfold pyStrip
  have h1 : noMatch (l.dropWhile isPySpace) := noMatch_dropWhile h _
  obtain ⟨sp, hsp, heq⟩ := rstrip_split (l.dropWhile isPySpace)
  apply noMatch_append_space hsp
  rw [← heq]
  exact h1

theorem headRun_collapseWs : ∀ s : List Char, headRun (collapseWs s) = headRun s := by
  suffices H : ∀ n, ∀ s : List Char, s.length = n → headRun (collapseWs s) = headRun s by
    intro s; exact H s.length s rfl
  intro n
  induction n using Nat.strong_induction_on with
  | _ n ih =>
    intro s hn
    subst hn
    cases s with
    | nil => rw [collapseWs_nil]
    | cons c cs =>
      by_cases hc : isPySpace c = true
      · rw [collapseWs_eq_space hc, headRun_cons_space hc, headRun_cons_space (by decide)]
      · rw [collapseWs_eq_cons (by simpa using hc),
          headRun_cons_nonspace (by simpa using hc),
          headRun_cons_nonspace (by simpa using hc),
          ih cs.length (by simp) cs rfl]

theorem noMatch_collapseWs : ∀ s : List Char, noMatch s → noMatch (collapseWs s) := by
  suffices H : ∀ n, ∀ s : List Char, s.length = n → noMatch s → noMatch (collapseWs s) by
    intro s; exact H s.length s rfl
  intro n
  induction n using Nat.strong_induction_on with
  | _ n ih =>
    intro s hn h
    subst hn
    cases s with
    | nil => rw [collapseWs_nil]; exact h
    | cons c cs =>
      by_cases hc : isPySpace c = true
      · rw [collapseWs_eq_space hc]
        intro i
        cases i with
        | zero =>
            rw [List.drop_zero, matchLen_eq_matchRun, headRun_cons_space (by decide),
              matchRun_nil]
        | succ j =>
            rw [List.drop_succ_cons]
            have hlen := length_dropWhile_le' isPySpace cs
            exact ih (cs.dropWhile isPySpace).length (by simp; omega) _ rfl
              (noMatch_dropWhile (noMatch_tail h) _) j
      · rw [collapseWs_eq_cons (by simpa using hc)]
        intro i
        cases i with
        | zero =>
            rw [List.drop_zero, matchLen_eq_matchRun,
              headRun_cons_nonspace (by simpa using hc), headRun_collapseWs cs,
              ← headRun_cons_nonspace (c := c) (by simpa using hc), ← matchLen_eq_matchRun]
            have := h 0
            rwa [List.drop_zero] at this
        | succ j =>
            rw [List.drop_succ_cons]
            exact ih cs.length (by simp) cs rfl (noMatch_tail h) j

theorem headRun_map_toLower (s : List Char) :
    headRun (s.map Char.toLower) = (headRun s).map Char.toLower := by
  unfold headRun
  rw [List.takeWhile_map]
  congr 1
  have : ((fun c => !isPySpace c) ∘ Char.toLower) = fun c : Char => !isPySpace c := by
    funext c
    simp [Function.comp, isPySpace_toLower]
  rw [this]

theorem isCIPre_map_toLower (p : List Char) : ∀ s, isCIPre p (s.map Char.toLower) = isCIPre p s := by
  induction p with
  | nil => intro s; rfl
  | cons p₀ ps ih =>
    intro s
    cases s with
    | nil => rfl
    | cons c cs =>
      simp only [List.map_cons, isCIPre, toLower_toLower, ih]

theorem matchRun_map_toLower (r : List Char) :
    matchRun (r.map Char.toLower) = matchRun r := by
  unfold matchRun
  have hfind : urlPats.find? (fun p => isCIPre p (r.map Char.toLower)) =
      urlPats.find? (fun p => isCIPre p r) :=
    find?_congr_local _ _ _ (fun p _ => isCIPre_map_toLower p r)
  rw [hfind]
  cases urlPats.find? (fun p => isCIPre p r) with
  | none => rfl
  | some p => simp

theorem noMatch_map_toLower {s : List Char} (h : noMatch s) :
    noMatch (s.map Char.toLower) := by
  intro i
  rw [matchLen_eq_matchRun, ← List.map_drop, headRun_map_toLower, matchRun_map_toLower,
    ← matchLen_eq_matchRun]
  exact h i

theorem urlSub_eq_self {s : List Char} (h : noMatch s) : urlSub s = s := by
  induction s with
  | nil => exact urlSub_nil
  | cons c cs ih =>
    have h0 := h 0
    rw [List.drop_zero] at h0
    rw [urlSub_eq_cons h0, ih (noMatch_tail h)]

/-! ## Whitespace normal form and trimmedness -/

theorem goodWs_nil : goodWs [] := ⟨by simp, List.chain'_nil⟩

theorem goodWs_tail {c : Char} {cs : List Char} (h : goodWs (c :: cs)) : goodWs cs :=
  ⟨fun x hx hs => h.1 x (by simp [hx]) hs, h.2.tail⟩

theorem goodWs_drop : ∀ (k : Nat) (l : List Char), goodWs l → goodWs (l.drop k)
  | 0, _, h => h
  | _ + 1, [], h => h
  | k + 1, c :: cs, h => by
      rw [List.drop_succ_cons]
      exact goodWs_drop k cs (goodWs_tail h)

theorem goodWs_dropWhile {l : List Char} (h : goodWs l) (p : Char → Bool) :
    goodWs (l.dropWhile p) := by
  rw [dropWhile_eq_drop_len]
  exact goodWs_drop _ _ h

theorem goodWs_reverse {l : List Char} (h : goodWs l) : goodWs l.reverse := by
  refine ⟨fun c hc => h.1 c (List.mem_reverse.mp hc), ?_⟩
  rw [List.chain'_reverse]
  exact h.2.imp (fun a b hab => fun hc => hab ⟨hc.2, hc.1⟩)

theorem goodWs_pyStrip {l : List Char} (h : goodWs l) : goodWs (pyStrip l) :=
  goodWs_reverse (goodWs_dropWhile (goodWs_reverse (goodWs_dropWhile h _)) _)

theorem goodWs_map_toLower {l : List Char} (h : goodWs l) :
    goodWs (l.map Char.toLower) := by
  constructor
  · intro c hc hs
    rw [List.mem_map] at hc
    obtain ⟨a, ha, rfl⟩ := hc
    rw [isPySpace_toLower] at hs
    rw [h.1 a ha hs]
    decide
  · rw [List.chain'_map]
    exact h.2.imp (fun a b hab => fun hc => by
      rw [isPySpace_toLower, isPySpace_toLower] at hc
      exact hab hc)

theorem head?_dropWhile_nonspace (l : List Char) :
    ∀ c ∈ (l.dropWhile isPySpace).head?, isPySpace c = false := by
  intro c hc
  have h0 := List.head?_dropWhile_not isPySpace l
  cases hh : (l.dropWhile isPySpace).head? with
  | none => rw [hh] at hc; simp at hc
  | some d =>
      rw [hh] at hc h0
      simp only [Option.mem_def, Option.some.injEq] at hc
      subst hc
      exact h0

theorem collapseWs_head_nonspace_of {u : List Char}
    (hu : ∀ c ∈ u.head?, isPySpace c = false) :
    ∀ c ∈ (collapseWs u).head?, isPySpace c = false := by
  cases u with
  | nil => rw [collapseWs_nil]; simp
  | cons d t =>
    have hd : isPySpace d = false := hu d (by simp)
    rw [collapseWs_eq_cons (by simp [hd])]
    intro c hc
    simp only [List.head?_cons, Option.mem_def, Option.some.injEq] at hc
    subst hc
    exact hd

theorem goodWs_collapseWs : ∀ s : List Char, goodWs (collapseWs s) := by
  suffices H : ∀ n, ∀ s : List Char, s.length = n → goodWs (collapseWs s) by
    intro s; exact H s.length s rfl
  intro n
  induction n using Nat.strong_induction_on with
  | _ n ih =>
    intro s hn
    subst hn
    cases s with
    | nil => rw [collapseWs_nil]; exact goodWs_nil
    | cons c cs =>
      by_cases hc : isPySpace c = true
      · rw [collapseWs_eq_space hc]
        have hlen := length_dropWhile_le' isPySpace cs
        have hrest := ih (cs.dropWhile isPySpace).length (by simp; omega) _ rfl
        constructor
        · intro x hx hs
          rcases List.mem_cons.mp hx with rfl | hx2
          · rfl
          · exact hrest.1 x hx2 hs
        · rw [List.chain'_cons']
          refine ⟨?_, hrest.2⟩
          intro y hy hcon
          have hns := collapseWs_head_nonspace_of (head?_dropWhile_nonspace cs) y hy
          rw [hns] at hcon
          exact absurd hcon.2 (by simp)
      · rw [collapseWs_eq_cons (by simpa using hc)]
        have hrest := ih cs.length (by simp) cs rfl
        constructor
        · intro x hx hs
          rcases List.mem_cons.mp hx with rfl | hx2
          · exact absurd hs hc
          · exact hrest.1 x hx2 hs
        · rw [List.chain'_cons']
          exact ⟨fun y _ hcon => hc hcon.1, hrest.2⟩

theorem collapseWs_eq_self {s : List Char} (h : goodWs s) : collapseWs s = s := by
  induction s with
  | nil => exact collapseWs_nil
  | cons c cs ih =>
    by_cases hc : isPySpace c = true
    · have hsp : c = ' ' := h.1 c (by simp) hc
      rw [collapseWs_eq_space hc]
      have hdrop : cs.dropWhile isPySpace = cs := by
        cases cs with
        | nil => rfl
        | cons d t =>
          have hpair := (List.chain'_cons'.mp h.2).1 d (by simp)
          have hd : ¬ (isPySpace d = true) := fun hd => hpair ⟨hc, hd⟩
          rw [List.dropWhile_cons_of_neg (by simpa using hd)]
      rw [hdrop, ih (goodWs_tail h), hsp]
    · rw [collapseWs_eq_cons (by simpa using hc), ih (goodWs_tail h)]

theorem dropWhile_eq_self_of_head {p : Char → Bool} {l : List Char}
    (h : ∀ c ∈ l.head?, p c = false) : l.dropWhile p = l := by
  cases l with
  | nil => rfl
  | cons c cs =>
    have hc := h c (by simp)
    rw [List.dropWhile_cons_of_neg (by simp [hc])]

theorem pyStrip_eq_self {l : List Char} (h : trimmed l) : pyStrip l = l := by
  unfold pyStrip
  rw [dropWhile_eq_self_of_head h.1,
    dropWhile_eq_self_of_head (by rw [List.head?_reverse]; exact h.2),
    List.reverse_reverse]

theorem getLast?_drop_of_ne :
    ∀ (k : Nat) (l : List Char), l.drop k ≠ [] → (l.drop k).getLast? = l.getLast? := by
  intro k
  induction k with
  | zero => intro l _; rfl
  | succ j ih =>
    intro l h
    cases l with
    | nil => exact absurd rfl h
    | cons c cs =>
      rw [List.drop_succ_cons] at h ⊢
      rw [ih cs h]
      have hcs : cs ≠ [] := by
        intro he
        rw [he] at h
        simp at h
      cases cs with
      | nil => exact absurd rfl hcs
      | cons d t => rw [List.getLast?_cons_cons]

theorem trimmed_pyStrip (l : List Char) : trimmed (pyStrip l) := by
  unfold pyStrip
  constructor
  · rw [List.head?_reverse]
    intro c hc
    by_cases hX : (l.dropWhile isPySpace).reverse.dropWhile isPySpace = []
    · rw [hX] at hc; simp at hc
    · rw [dropWhile_eq_drop_len] at hc hX
      rw [getLast?_drop_of_ne _ _ hX, List.getLast?_reverse] at hc
      exact head?_dropWhile_nonspace l c hc
  · rw [List.getLast?_reverse]
    exact head?_dropWhile_nonspace _

theorem trimmed_map_toLower {l : List Char} (h : trimmed l) :
    trimmed (l.map Char.toLower) := by
  constructor
  · rw [List.head?_map]
    intro c hc
    cases hh : l.head? with
    | none => rw [hh] at hc; simp at hc
    | some a =>
        rw [hh] at hc
        simp only [Option.map_some', Option.mem_def, Option.some.injEq] at hc
        subst hc
        rw [isPySpace_toLower]
        exact h.1 a (by rw [hh]; rfl)
  · rw [List.getLast?_map]
    intro c hc
    cases hh : l.getLast? with
    | none => rw [hh] at hc; simp at hc
    | some a =>
        rw [hh] at hc
        simp only [Option.map_some', Option.mem_def, Option.some.injEq] at hc
        subst hc
        rw [isPySpace_toLower]
        exact h.2 a (by rw [hh]; rfl)

/-! ## ASCII preservation and the casefold stage -/

theorem allAscii_toLower {c : Char} (h : c.toNat < 128) : c.toLower.toNat < 128 := by
  rw [toLower_toNat]
  split <;> omega

theorem caseFold_ascii {c : Char} (h : c.toNat < 128) : pyCaseFold c = [c.toLower] := by
  unfold pyCaseFold
  rw [if_neg]
  intro he
  subst he
  exact absurd h (by decide)

theorem flatten_caseFold_eq_map {l : List Char} (h : allAscii l) :
    (l.map pyCaseFold).flatten = l.map Char.toLower := by
  induction l with
  | nil => rfl
  | cons c cs ih =>
    rw [List.map_cons, List.map_cons, List.flatten_cons, caseFold_ascii (h c (by simp)),
      ih (fun x hx => h x (by simp [hx])), List.singleton_append]

theorem allAscii_drop {l : List Char} (h : allAscii l) (k : Nat) : allAscii (l.drop k) :=
  fun c hc => h c (List.mem_of_mem_drop hc)

theorem allAscii_dropWhile {l : List Char} (h : allAscii l) (p : Char → Bool) :
    allAscii (l.dropWhile p) := by
  rw [dropWhile_eq_drop_len]
  exact allAscii_drop h _

theorem allAscii_reverse {l : List Char} (h : allAscii l) : allAscii l.reverse :=
  fun c hc => h c (List.mem_reverse.mp hc)

theorem allAscii_pyStrip {l : List Char} (h : allAscii l) : allAscii (pyStrip l) :=
  allAscii_reverse (allAscii_dropWhile (allAscii_reverse (allAscii_dropWhile h _)) _)

theorem allAscii_tail {c : Char} {cs : List Char} (h : allAscii (c :: cs)) : allAscii cs :=
  fun x hx => h x (by simp [hx])

theorem allAscii_urlSub : ∀ s : List Char, allAscii s → allAscii (urlSub s) := by
  suffices H : ∀ n, ∀ s : List Char, s.length = n → allAscii s → allAscii (urlSub s) by
    intro s; exact H s.length s rfl
  intro n
  induction n using Nat.strong_induction_on with
  | _ n ih =>
    intro s hn h
    subst hn
    cases s with
    | nil => rw [urlSub_nil]; exact h
    | cons c cs =>
      cases hm : matchLen (c :: cs) with
      | some l =>
          rw [urlSub_eq_del hm]
          have hp := matchLen_pos hm
          exact ih ((c :: cs).drop l).length
            (by simp only [List.length_drop, List.length_cons]; omega) _ rfl
            (allAscii_drop h l)
      | none =>
          rw [urlSub_eq_cons hm]
          intro x hx
          rcases List.mem_cons.mp hx with rfl | hx2
          · exact h x (by simp)
          · exact ih cs.length (by simp) cs rfl (allAscii_tail h) x hx2

theorem allAscii_collapseWs : ∀ s : List Char, allAscii s → allAscii (collapseWs s) := by
  suffices H : ∀ n, ∀ s : List Char, s.length = n → allAscii s → allAscii (collapseWs s) by
    intro s; exact H s.length s rfl
  intro n
  induction n using Nat.strong_induction_on with
  | _ n ih =>
    intro s hn h
    subst hn
    cases s with
    | nil => rw [collapseWs_nil]; exact h
    | cons c cs =>
      by_cases hc : isPySpace c = true
      · rw [collapseWs_eq_space hc]
        intro x hx
        rcases List.mem_cons.mp hx with rfl | hx2
        · decide
        · have hlen := length_dropWhile_le' isPySpace cs
          exact ih (cs.dropWhile isPySpace).length (by simp; omega) _ rfl
            (allAscii_dropWhile (allAscii_tail h) _) x hx2
      · rw [collapseWs_eq_cons (by simpa using hc)]
        intro x hx
        rcases List.mem_cons.mp hx with rfl | hx2
        · exact h x (by simp)
        · exact ih cs.length (by simp) cs rfl (allAscii_tail h) x hx2

theorem allAscii_map_toLower {l : List Char} (h : allAscii l) :
    allAscii (l.map Char.toLower) := by
  intro c hc
  rw [List.mem_map] at hc
  obtain ⟨a, ha, rfl⟩ := hc
  exact allAscii_toLower (h a ha)

/-! ## Idempotence of `clean_caption` on ASCII input -/

theorem cleanL_eq_map_toLower {l : List Char}
    (h : allAscii (pyStrip (collapseWs (urlSub (pyStrip l))))) :
    cleanL l = (pyStrip (collapseWs (urlSub (pyStrip l)))).map Char.toLower := by
  unfold cleanL
  exact flatten_caseFold_eq_map h

theorem cleanL_idem {l : List Char} (h : allAscii l) : cleanL (cleanL l) = cleanL l := by
  have h4 : allAscii (pyStrip (collapseWs (urlSub (pyStrip l)))) :=
    allAscii_pyStrip (allAscii_collapseWs _ (allAscii_urlSub _ (allAscii_pyStrip h)))
  have hy := cleanL_eq_map_toLower h4
  have hyAscii : allAscii (cleanL l) := by
    rw [hy]; exact allAscii_map_toLower h4
  have hnm : noMatch (cleanL l) := by
    rw [hy]
    exact noMatch_map_toLower (noMatch_pyStrip (noMatch_collapseWs _ (noMatch_urlSub _)))
  have hgw : goodWs (cleanL l) := by
    rw [hy]
    exact goodWs_map_toLower (goodWs_pyStrip (goodWs_collapseWs _))
  have htr : trimmed (cleanL l) := by
    rw [hy]
    exact trimmed_map_toLower (trimmed_pyStrip _)
  have hlower : (cleanL l).map Char.toLower = cleanL l := by
    rw [hy, List.map_map]
    have hcomp : (Char.toLower ∘ Char.toLower) = Char.toLower := funext toLower_toLower
    rw [hcomp]
  show ((pyStrip (collapseWs (urlSub (pyStrip (cleanL l))))).map pyCaseFold).flatten = cleanL l
  rw [pyStrip_eq_self htr, urlSub_eq_self hnm, collapseWs_eq_self hgw, pyStrip_eq_self htr,
    flatten_caseFold_eq_map hyAscii, hlower]

/-! ## Claim C6: idempotence of caption normalization -/

/-- Claim C6, counterexample: normalization is not idempotent on every input
string.  On `"ﬅ.me/a"` the casefold step expands the ligature `ﬅ` (U+FB05)
to `st`, creating the link `t.me/a` which only a second application removes:
`clean_caption "ﬅ.me/a" = "st.me/a"`, yet applying `clean_caption` again
yields `"s"`. -/
theorem clean_caption_not_idem_ligature :
    clean_caption (clean_caption "ﬅ.me/a") ≠ clean_caption "ﬅ.me/a" := by decide

/-- Claim C6 (amended): caption normalization is idempotent on every input
string made of ASCII characters — in particular on strings containing
embedded URLs, platform short links, and irregular whitespace:
`clean_caption (clean_caption x) = clean_caption x`.  (The unamended claim
over all Unicode strings is refuted by `clean_caption_not_idem_ligature`.) -/
theorem clean_caption_idem_ascii (s : String) (h : ∀ c ∈ s.toList, c.toNat < 128) :
    clean_caption (clean_caption s) = clean_caption s := by
  show String.mk (cleanL (String.mk (cleanL s.toList)).toList) = String.mk (cleanL s.toList)
  have he : (String.mk (cleanL s.toList)).toList = cleanL s.toList := rfl
  rw [he, cleanL_idem h]

/-- Witness for `clean_caption_idem_ascii` at a concrete caption with an
embedded URL and irregular whitespace. -/
theorem clean_caption_idem_ascii_witness :
    (∀ c ∈ "A  SUNSET http://x.co/q \t view ".toList, c.toNat < 128) ∧
      clean_caption (clean_caption "A  SUNSET http://x.co/q \t view ") =
        clean_caption "A  SUNSET http://x.co/q \t view " :=
  ⟨by decide, clean_caption_idem_ascii _ (by decide)⟩

/-! ## Claim C7: `normalize_chat_ref` -/

theorem isAsciiDigit_nonspace {c : Char} (h : isAsciiDigit c = true) :
    isPySpace c = false := by
  rw [Bool.eq_false_iff]
  intro hs
  have hd : 48 ≤ c.toNat ∧ c.toNat ≤ 57 := by
    unfold isAsciiDigit at h
    simp only [Bool.and_eq_true, decide_eq_true_eq] at h
    exact h
  have := isPySpace_iff_toNat.mp hs
  omega

theorem isAsciiDigit_ne_dash {c : Char} (h : isAsciiDigit c = true) : c ≠ '-' := by
  intro he
  subst he
  exact absurd h (by decide)

theorem isAsciiDigit_ne_plus {c : Char} (h : isAsciiDigit c = true) : c ≠ '+' := by
  intro he
  subst he
  exact absurd h (by decide)

theorem mem_head? {l : List Char} {c : Char} (h : c ∈ l.head?) : c ∈ l := by
  cases l with
  | nil => simp at h
  | cons a t =>
    simp only [List.head?_cons, Option.mem_def, Option.some.injEq] at h
    subst h
    simp

theorem mem_getLast? {l : List Char} {c : Char} (h : c ∈ l.getLast?) : c ∈ l := by
  have h2 : c ∈ l.reverse.head? := by rwa [List.head?_reverse]
  exact List.mem_reverse.mp (mem_head? h2)

theorem pyStrip_eq_self_of_nonspace {l : List Char}
    (h : ∀ c ∈ l, isPySpace c = false) : pyStrip l = l :=
  pyStrip_eq_self ⟨fun c hc => h c (mem_head? hc), fun c hc => h c (mem_getLast? hc)⟩

theorem dropWhile_dash_of_digits {l : List Char} (hne : l ≠ [])
    (hd : l.all isAsciiDigit = true) : l.dropWhile (· = '-') = l := by
  cases l with
  | nil => exact absurd rfl hne
  | cons c cs =>
    have hc : isAsciiDigit c = true := by
      rw [List.all_eq_true] at hd
      exact hd c (by simp)
    rw [List.dropWhile_cons_of_neg (by simpa using isAsciiDigit_ne_dash hc)]

/-- Claim C7, counterexample: reference normalization is not total and does
not treat `"--5"` as a handle: the text with all leading `-` stripped is
numeric, so the code calls `int("--5")`, which raises an uncaught
`ValueError` (modelled as `none`) — whereas the claim promises that every
input yields either a numeric form or the unchanged handle. -/
theorem normalize_chat_ref_not_total : normalize_chat_ref "--5" = none := by decide

/-- Claim C7 (amended): on ASCII input, `normalize_chat_ref` strips
whitespace and one optional leading `@` marker; if the remaining text is
one optional `-` sign followed only by digits it returns the numeric form
with that decimal value; if the remaining text is two or more `-` signs
followed only by digits, the numeric conversion raises and the call fails;
otherwise the remaining text is returned unchanged as a handle.  The ASCII
hypothesis bounds the scope of the character model: outside it Python's
`str.isdigit` and `int()` also accept Unicode digit codepoints (so, e.g.,
ARABIC-INDIC digits are coerced, and superscript digits pass the gate but
make `int()` raise), cases the trichotomy does not cover. -/
theorem normalize_chat_ref_spec (s : String)
    (hA : ∀ c ∈ s.toList, c.toNat < 128) :
    (refText s ≠ [] → (refText s).all isAsciiDigit = true →
        normalize_chat_ref s = some (ChatRef.id (digitsVal (refText s) : Int))) ∧
    (∀ ds, refText s = '-' :: ds → ds ≠ [] → ds.all isAsciiDigit = true →
        normalize_chat_ref s = some (ChatRef.id (-(digitsVal ds : Int)))) ∧
    (∀ ds, refText s = '-' :: '-' :: ds →
        pyIsDigit ((refText s).dropWhile (· = '-')) = true →
        normalize_chat_ref s = none) ∧
    (pyIsDigit ((refText s).dropWhile (· = '-')) = false →
        normalize_chat_ref s = some (ChatRef.handle (String.mk (refText s)))) := by
  refine ⟨?_, ?_, ?_, ?_⟩
  · intro hne hd
    have hdrop := dropWhile_dash_of_digits hne hd
    have hstrip : pyStrip (refText s) = refText s :=
      pyStrip_eq_self_of_nonspace (fun c hc => by
        rw [List.all_eq_true] at hd
        exact isAsciiDigit_nonspace (hd c hc))
    unfold normalize_chat_ref
    dsimp only
    rw [hdrop, if_pos (by unfold pyIsDigit; simp [hne, hd])]
    unfold pyInt
    rw [hstrip]
    cases ht : refText s with
    | nil => exact absurd ht hne
    | cons c cs =>
      have hc : isAsciiDigit c = true := by
        rw [List.all_eq_true] at hd
        exact hd c (by rw [ht]; simp)
      dsimp only
      rw [if_neg (by simpa using isAsciiDigit_ne_dash hc),
        if_neg (by simpa using isAsciiDigit_ne_plus hc),
        if_pos (by rw [← ht]; exact hd)]
      rfl
  · intro ds ht hne hd
    have hstrip : pyStrip (refText s) = refText s := by
      apply pyStrip_eq_self_of_nonspace
      intro c hc
      rw [ht] at hc
      rcases List.mem_cons.mp hc with rfl | hc2
      · decide
      · rw [List.all_eq_true] at hd
        exact isAsciiDigit_nonspace (hd c hc2)
    unfold normalize_chat_ref
    dsimp only
    rw [ht, List.dropWhile_cons_of_pos (by decide), dropWhile_dash_of_digits hne hd,
      if_pos (by unfold pyIsDigit; simp [hne, hd])]
    unfold pyInt
    rw [← ht, hstrip, ht]
    dsimp only
    rw [if_pos rfl, if_pos ⟨hne, hd⟩]
    rfl
  · intro ds ht hdig
    unfold normalize_chat_ref
    dsimp only
    rw [if_pos hdig]
    have hstrip : pyStrip (refText s) = refText s := by
      apply pyStrip_eq_self_of_nonspace
      intro c hc
      conv at hc => rw [← List.takeWhile_append_dropWhile (p := (· = '-')) (l := refText s)]
      rcases List.mem_append.mp hc with hc1 | hc2
      · have := mem_takeWhile_sat hc1
        simp only [decide_eq_true_eq] at this
        subst this
        decide
      · unfold pyIsDigit at hdig
        rw [Bool.and_eq_true, List.all_eq_true] at hdig
        exact isAsciiDigit_nonspace (hdig.2 c hc2)
    unfold pyInt
    rw [hstrip, ht]
    dsimp only
    rw [if_pos rfl, if_neg]
    · rfl
    · rintro ⟨-, hall⟩
      rw [List.all_eq_true] at hall
      exact absurd rfl (isAsciiDigit_ne_dash (hall '-' (by simp)))
  · intro hnd
    unfold normalize_chat_ref
    dsimp only
    rw [if_neg (by simp [hnd])]

/-- Witness for `normalize_chat_ref_spec`: each of the four cases evaluated
at a concrete input. -/
theorem normalize_chat_ref_spec_witness :
    normalize_chat_ref "42" = some (ChatRef.id 42) ∧
    normalize_chat_ref "@-100123" = some (ChatRef.id (-100123)) ∧
    normalize_chat_ref "--7" = none ∧
    normalize_chat_ref " @alice " = some (ChatRef.handle "alice") := by
  refine ⟨?_, ?_, ?_, ?_⟩
  · have h := (normalize_chat_ref_spec "42" (by decide)).1 (by decide) (by decide)
    rw [h]; decide
  · have h := (normalize_chat_ref_spec "@-100123" (by decide)).2.1
      ['1', '0', '0', '1', '2', '3'] (by decide) (by decide) (by decide)
    rw [h]; decide
  · exact (normalize_chat_ref_spec "--7" (by decide)).2.2.1 ['7'] (by decide) (by decide)
  · have h := (normalize_chat_ref_spec " @alice " (by decide)).2.2.2 (by decide)
    rw [h]; decide

/-! ## Claim C8: the reset command -/

/-- Claim C8: from any configuration state whatsoever — any fields set, any
waiting marker armed — the reset command leaves the configuration equal to a
freshly-initialized empty state: source, both range endpoints, every
target's channels and range endpoints cleared, and the armed state-machine
marker disarmed. -/
theorem cmd_reset_clears (s : State) :
    cmd_reset s = State.init ∧
    (cmd_reset s).source_x = none ∧
    (cmd_reset s).x_start = none ∧
    (cmd_reset s).x_end = none ∧
    (cmd_reset s).targets1 =
      { target_a := none, target_list := none, a_start := none, a_end := none } ∧
    (cmd_reset s).targets2 =
      { target_a := none, target_list := none, a_start := none, a_end := none } ∧
    (cmd_reset s).waiting_for = none :=
  ⟨rfl, rfl, rfl, rfl, rfl, rfl, rfl⟩

/-! ## Claim C9: the permalink builder -/

theorem removeAllGo_nil (pat : List Char) : ∀ f, removeAllGo pat f [] = []
  | 0 => rfl
  | _ + 1 => rfl

theorem removeAllGo_congr {pat : List Char} (hp : pat ≠ []) :
    ∀ (f₁ f₂ : Nat) (l : List Char), l.length ≤ f₁ → l.length ≤ f₂ →
      removeAllGo pat f₁ l = removeAllGo pat f₂ l := by
  intro f₁
  induction f₁ using Nat.strong_induction_on with
  | _ f₁ ih =>
    intro f₂ l h₁ h₂
    cases l with
    | nil => rw [removeAllGo_nil, removeAllGo_nil]
    | cons c cs =>
      cases f₁ with
      | zero => simp at h₁
      | succ f =>
        cases f₂ with
        | zero => simp at h₂
        | succ g =>
          simp only [removeAllGo]
          by_cases hm : listPreB pat (c :: cs) = true
          · rw [if_pos hm, if_pos hm]
            have hplen : 0 < pat.length := by
              cases pat with
              | nil => exact absurd rfl hp
              | cons a t => simp
            have hlen := listPreB_length_le hm
            have hf : ((c :: cs).drop pat.length).length ≤ f := by
              simp only [List.length_drop, List.length_cons]
              simp only [List.length_cons] at h₁
              omega
            have hg : ((c :: cs).drop pat.length).length ≤ g := by
              simp only [List.length_drop, List.length_cons]
              simp only [List.length_cons] at h₂
              omega
            exact ih f (by omega) g _ hf hg
          · rw [if_neg hm, if_neg hm]
            have hf : cs.length ≤ f := by simp at h₁; omega
            have hg : cs.length ≤ g := by simp at h₂; omega
            exact congrArg (c :: ·) (ih f (by omega) g cs hf hg)

theorem removeAll_eq_del {pat l : List Char} (hp : pat ≠ [])
    (h : listPreB pat l = true) : removeAll pat l = removeAll pat (l.drop pat.length) := by
  cases l with
  | nil =>
    cases pat with
    | nil => exact absurd rfl hp
    | cons a t => exact absurd h (by simp [listPreB])
  | cons c cs =>
    show removeAllGo pat (cs.length + 1) (c :: cs) = _
    simp only [removeAllGo, h, if_true]
    have hplen : 0 < pat.length := by
      cases pat with
      | nil => exact absurd rfl hp
      | cons a t => simp
    exact removeAllGo_congr hp _ _ _
      (by simp only [List.length_drop, List.length_cons]; omega) le_rfl

theorem removeAll_eq_cons {pat : List Char} {c : Char} {cs : List Char}
    (h : listPreB pat (c :: cs) = false) :
    removeAll pat (c :: cs) = c :: removeAll pat cs := by
  show removeAllGo pat (cs.length + 1) (c :: cs) = _
  simp only [removeAllGo, h]
  rfl

theorem removeAll_id_of_no_dash {pt l : List Char} (h : ∀ c ∈ l, c ≠ '-') :
    removeAll ('-' :: pt) l = l := by
  induction l with
  | nil => rfl
  | cons c cs ih =>
    have hc : ('-' = c) = False := by
      simp only [eq_iff_iff, iff_false]
      exact fun he => h c (by simp) he.symm
    rw [removeAll_eq_cons (by simp [listPreB, hc]),
      ih (fun x hx => h x (by simp [hx]))]

theorem digitChar_digit {d : Nat} (h : d < 10) : isAsciiDigit (Nat.digitChar d) = true := by
  interval_cases d <;> decide

theorem natDigitsGo_digits : ∀ (f n : Nat) (acc : List Char),
    (∀ c ∈ acc, isAsciiDigit c = true) → ∀ c ∈ natDigitsGo f n acc, isAsciiDigit c = true := by
  intro f
  induction f with
  | zero => intro n acc hacc; exact hacc
  | succ g ih =>
    intro n acc hacc c hc
    unfold natDigitsGo at hc
    by_cases hn : n < 10
    · rw [if_pos hn] at hc
      rcases List.mem_cons.mp hc with rfl | h2
      · exact digitChar_digit hn
      · exact hacc c h2
    · rw [if_neg hn] at hc
      refine ih (n / 10) _ ?_ c hc
      intro x hx
      rcases List.mem_cons.mp hx with rfl | h2
      · exact digitChar_digit (Nat.mod_lt _ (by norm_num))
      · exact hacc x h2

theorem natToStr_digits (n : Nat) : ∀ c ∈ natToStr n, isAsciiDigit c = true :=
  natDigitsGo_digits _ _ _ (by simp)

theorem removeAll_intToStr (i : Int) :
    removeAll ['-', '1', '0', '0'] (intToStr i) = dropNeg100Pre (intToStr i) := by
  have hnd : ∀ c ∈ natToStr i.natAbs, c ≠ '-' :=
    fun c hc => isAsciiDigit_ne_dash (natToStr_digits _ c hc)
  unfold intToStr dropNeg100Pre
  by_cases hi : i < 0
  · rw [if_pos hi]
    by_cases hpre : listPreB ['-', '1', '0', '0'] ('-' :: natToStr i.natAbs) = true
    · rw [if_pos hpre, removeAll_eq_del (by simp) hpre]
      have hd : ('-' :: natToStr i.natAbs).drop 4 = (natToStr i.natAbs).drop 3 := by
        rw [show (4 : Nat) = 3 + 1 from rfl, List.drop_succ_cons]
      rw [show (['-', '1', '0', '0'] : List Char).length = 4 from rfl, hd]
      exact removeAll_id_of_no_dash
        (fun c hc => hnd c (List.mem_of_mem_drop hc))
    · rw [if_neg hpre]
      have hpre' : listPreB ['-', '1', '0', '0'] ('-' :: natToStr i.natAbs) = false := by
        rw [Bool.eq_false_iff]; exact hpre
      rw [removeAll_eq_cons hpre', removeAll_id_of_no_dash hnd]
  · rw [if_neg hi, removeAll_id_of_no_dash hnd, if_neg]
    intro hpre
    cases hl : natToStr i.natAbs with
    | nil => rw [hl] at hpre; exact absurd hpre (by simp [listPreB])
    | cons c cs =>
      rw [hl] at hpre
      have hc2 : c = '-' := by
        simp only [listPreB, Bool.and_eq_true, decide_eq_true_eq] at hpre
        exact hpre.1.symm
      exact hnd c (by rw [hl]; simp) hc2

/-- Claim C9: for every (handle, chat id, message id), when a non-empty
handle is present (Python truthiness of `chat_username`) the permalink
builder returns the public deep-link `https://t.me/<handle>/<id>`; otherwise
it returns the private deep-link `https://t.me/c/<internal>/<id>` whose
channel component is `str(chat_id)` with the fixed `-100` numeric prefix
removed (for an integer's decimal string, `replace("-100", "")` can only
remove that one leading occurrence).  The function is pure and total by
construction. -/
theorem make_post_link_spec (u : Option String) (cid : Int) (mid : Nat) :
    (∀ h, u = some h → h ≠ "" →
        make_post_link u cid mid =
          "https://t.me/" ++ h ++ "/" ++ String.mk (natToStr mid)) ∧
    (u = none ∨ u = some "" →
        make_post_link u cid mid =
          "https://t.me/c/" ++ String.mk (dropNeg100Pre (intToStr cid)) ++ "/"
            ++ String.mk (natToStr mid)) := by
  constructor
  · rintro h rfl hne
    unfold make_post_link
    dsimp only
    rw [if_pos hne]
  · rintro (rfl | rfl)
    · unfold make_post_link
      rw [removeAll_intToStr]
    · unfold make_post_link
      dsimp only
      rw [if_neg (by simp), removeAll_intToStr]

/-- Witness for `make_post_link_spec`: both branches at concrete inputs. -/
theorem make_post_link_spec_witness :
    make_post_link (some "alice") (-100123) 7 = "https://t.me/alice/7" ∧
    make_post_link none (-100123) 7 = "https://t.me/c/123/7" := by
  constructor
  · have h := (make_post_link_spec (some "alice") (-100123) 7).1 "alice" rfl (by decide)
    rw [h]; decide
  · have h := (make_post_link_spec none (-100123) 7).2 (Or.inl rfl)
    rw [h]; decide

/-! ## Claim C5: the range scanner -/

theorem iterBases_single {lo hi c : Nat} (hc : 0 < c) (hle : lo ≤ hi) (hlt : hi < lo + c) :
    iterBases lo hi c = [lo] := by
  unfold iterBases
  rw [if_pos hle, Nat.div_eq_of_lt (by omega), show List.range 1 = [0] from rfl]
  simp

theorem iterBases_step_map {lo c k : Nat} :
    ((List.range k).map ((fun i => lo + c * i) ∘ Nat.succ)) =
      (List.range k).map (fun i => lo + c + c * i) := by
  apply List.map_congr_left
  intro i _
  simp only [Function.comp]
  rw [Nat.succ_eq_add_one]
  ring

theorem iterBases_step {lo hi c : Nat} (hc : 0 < c) (hle : lo + c ≤ hi) :
    iterBases lo hi c = lo :: iterBases (lo + c) hi c := by
  unfold iterBases
  rw [if_pos (by omega), if_pos (by omega)]
  have h1 : (hi - lo) / c = (hi - (lo + c)) / c + 1 := by
    rw [show hi - lo = (hi - (lo + c)) + c by omega, Nat.add_div_right _ hc]
  rw [h1, List.range_succ_eq_map, List.map_cons, List.map_map, iterBases_step_map,
    show lo + c * 0 = lo by ring]

theorem requests_flatten : ∀ (k lo hi c : Nat), 0 < c → hi + 1 - lo ≤ k →
    ((iterBases lo hi c).map
        (fun base => List.range' base (min (base + c) (hi + 1) - base))).flatten
      = List.range' lo (hi + 1 - lo) := by
  intro k
  induction k with
  | zero =>
    intro lo hi c hc hk
    have hno : ¬ (lo ≤ hi) := by omega
    unfold iterBases
    rw [if_neg hno]
    simp [show hi + 1 - lo = 0 by omega]
  | succ j ih =>
    intro lo hi c hc hk
    by_cases hle : lo ≤ hi
    · by_cases hlt : hi < lo + c
      · rw [iterBases_single hc hle hlt]
        simp only [List.map_cons, List.map_nil, List.flatten_cons, List.flatten_nil,
          List.append_nil]
        congr 1
        omega
      · push_neg at hlt
        rw [iterBases_step hc hlt, List.map_cons, List.flatten_cons,
          ih (lo + c) hi c hc (by omega)]
        have hmin : min (lo + c) (hi + 1) - lo = c := by omega
        rw [hmin]
        have happ := List.range'_append lo c (hi + 1 - (lo + c)) 1
        rw [show lo + 1 * c = lo + c by omega] at happ
        rw [happ]
        congr 1
        omega
    · unfold iterBases
      rw [if_neg hle]
      simp [show hi + 1 - lo = 0 by omega]

/-- Claim C5: for every pair of endpoint ids in either order and every
positive batch size, the scanner requests every id of
`[min(start, end), max(start, end)]` exactly once, in ascending order
(the flattened request list is exactly `range'` of the interval), in batches
of at most the batch size; and it yields exactly the messages that exist and
are non-empty, in request order — hence in ascending message-id order
whenever the store returns messages under their own ids. -/
theorem iter_range_spec (fetch : Fetch) (chat : Int) (s e c : Nat) (hc : 0 < c)
    (hwf : ∀ i m, fetch chat i = some m → m.id = i) :
    ((iter_range_requests s e c).flatten =
        List.range' (min s e) (max s e + 1 - min s e)) ∧
    (∀ b ∈ iter_range_requests s e c, b.length ≤ c) ∧
    (iter_range fetch chat s e c =
        (List.range' (min s e) (max s e + 1 - min s e)).filterMap (fun i =>
          match fetch chat i with
          | some m => if m.isEmpty then none else some m
          | none => none)) ∧
    (iter_range fetch chat s e c).Pairwise (fun m₁ m₂ => m₁.id < m₂.id) := by
  have h1 : (iter_range_requests s e c).flatten =
      List.range' (min s e) (max s e + 1 - min s e) := by
    unfold iter_range_requests
    exact requests_flatten (max s e + 1 - min s e) (min s e) (max s e) c hc le_rfl
  have h3 : iter_range fetch chat s e c =
      (List.range' (min s e) (max s e + 1 - min s e)).filterMap (fun i =>
        match fetch chat i with
        | some m => if m.isEmpty then none else some m
        | none => none) := by
    unfold iter_range yieldMsgs
    rw [h1]
  refine ⟨h1, ?_, h3, ?_⟩
  · intro b hb
    unfold iter_range_requests at hb
    rw [List.mem_map] at hb
    obtain ⟨base, _, rfl⟩ := hb
    rw [List.length_range']
    omega
  · rw [h3, List.pairwise_filterMap]
    have hid : ∀ a m, (match fetch chat a with
        | some mm => if mm.isEmpty then none else some mm
        | none => none) = some m → m.id = a := by
      intro a m hm
      cases hf : fetch chat a with
      | none => rw [hf] at hm; exact absurd hm (by simp)
      | some mm =>
          rw [hf] at hm
          dsimp only at hm
          by_cases he : mm.isEmpty
          · rw [if_pos he] at hm; exact absurd hm (by simp)
          · rw [if_neg he] at hm
            obtain rfl := Option.some.inj hm
            exact hwf a _ hf
    apply List.Pairwise.imp ?_ (List.pairwise_lt_range' _ _)
    intro a a' hlt m hm m' hm'
    rw [Option.mem_def] at hm hm'
    rw [hid a m hm, hid a' m' hm']
    exact hlt

/-- Witness for `iter_range_spec` at the concrete store `fetchW` and the
reversed range `(4, 2)` with batch size 2. -/
theorem iter_range_spec_witness :
    (0 < 2) ∧
    ((iter_range_requests 4 2 2).flatten = List.range' (min 4 2) (max 4 2 + 1 - min 4 2)) ∧
    (∀ b ∈ iter_range_requests 4 2 2, b.length ≤ 2) ∧
    (iter_range fetchW 5 4 2 2 =
      (List.range' (min 4 2) (max 4 2 + 1 - min 4 2)).filterMap (fun i =>
        match fetchW 5 i with
        | some m => if m.isEmpty then none else some m
        | none => none)) ∧
    (iter_range fetchW 5 4 2 2).Pairwise (fun m₁ m₂ => m₁.id < m₂.id) := by
  refine ⟨by decide, ?_⟩
  refine iter_range_spec fetchW 5 4 2 2 (by decide) ?_
  intro i m h
  unfold fetchW at h
  by_cases hi : i = 3
  · rw [if_pos hi] at h
    exact absurd h (by simp)
  · rw [if_neg hi] at h
    obtain rfl := Option.some.inj h
    rfl

/-! ## Claim C4: the per-target caption index -/

theorem iter_range_eq_filterMap (fetch : Fetch) (chat : Int) (s e c : Nat) (hc : 0 < c) :
    iter_range fetch chat s e c =
      (List.range' (min s e) (max s e + 1 - min s e)).filterMap (fun i =>
        match fetch chat i with
        | some m => if m.isEmpty then none else some m
        | none => none) := by
  unfold iter_range yieldMsgs iter_range_requests
  rw [requests_flatten (max s e + 1 - min s e) (min s e) (max s e) c hc le_rfl]

theorem lookup_singleton_ne {k key : String} {v : Nat} (h : (k == key) = false) :
    List.lookup k [(key, v)] = none := by
  rw [List.lookup_cons, h]
  rfl

theorem indexInsert_photo {idx : CaptionIndex} {m : Msg} (hp : m.photo = true) :
    indexInsert idx m =
      if clean_caption (m.caption.getD "") ≠ "" ∧
          (List.lookup (clean_caption (m.caption.getD "")) idx).isNone = true then
        idx ++ [(clean_caption (m.caption.getD ""), m.id)]
      else idx := by
  unfold indexInsert
  rw [if_pos hp]

theorem indexInsert_not_photo {idx : CaptionIndex} {m : Msg} (hp : m.photo = false) :
    indexInsert idx m = idx := by
  unfold indexInsert
  rw [if_neg (by simp [hp])]

theorem lookup_foldl_indexInsert {k : String} (hk : k ≠ "") :
    ∀ (msgs : List Msg) (acc : CaptionIndex),
      List.lookup k (msgs.foldl indexInsert acc) =
        (List.lookup k acc).or
          ((msgs.find? (fun m =>
            m.photo && (clean_caption (m.caption.getD "") == k))).map (·.id)) := by
  intro msgs
  induction msgs with
  | nil =>
    intro acc
    simp only [List.foldl_nil, List.find?_nil, Option.map_none']
    cases List.lookup k acc <;> rfl
  | cons m rest ih =>
    intro acc
    rw [List.foldl_cons]
    by_cases hp : m.photo
    · by_cases hkey : clean_caption (m.caption.getD "") = k
      · have hpred : (fun m : Msg => m.photo && (clean_caption (m.caption.getD "") == k)) m
            = true := by simp [hp, hkey]
        rw [List.find?_cons_of_pos
          (p := fun m : Msg => m.photo && (clean_caption (m.caption.getD "") == k)) _ hpred,
          indexInsert_photo hp]
        by_cases hacc : (List.lookup (clean_caption (m.caption.getD "")) acc).isNone = true
        · rw [if_pos ⟨by rw [hkey]; exact hk, hacc⟩, ih, List.lookup_append]
          rw [hkey] at hacc
          rw [Option.isNone_iff_eq_none] at hacc
          rw [hacc]
          have hone : List.lookup k [(clean_caption (m.caption.getD ""), m.id)] = some m.id := by
            rw [List.lookup_cons, show (k == clean_caption (m.caption.getD "")) = true by
              simp [hkey]]
          rw [hone]
          rfl
        · rw [if_neg (fun hcon => hacc hcon.2), ih]
          rw [hkey] at hacc
          obtain ⟨v, hv⟩ : ∃ v, List.lookup k acc = some v := by
            cases hl : List.lookup k acc with
            | none => rw [hl] at hacc; exact (hacc rfl).elim
            | some v => exact ⟨v, rfl⟩
          rw [hv]
          rfl
      · have hpred : (fun m : Msg => m.photo && (clean_caption (m.caption.getD "") == k)) m
            = false := by simp [hkey]
        rw [List.find?_cons_of_neg
          (p := fun m : Msg => m.photo && (clean_caption (m.caption.getD "") == k)) _
          (by simp [hpred]), indexInsert_photo hp]
        by_cases hins : clean_caption (m.caption.getD "") ≠ "" ∧
            (List.lookup (clean_caption (m.caption.getD "")) acc).isNone = true
        · rw [if_pos hins, ih, List.lookup_append,
            lookup_singleton_ne (by
              rw [beq_eq_false_iff_ne]
              exact fun h => hkey h.symm), Option.or_none]
        · rw [if_neg hins, ih]
    · rw [List.find?_cons_of_neg
        (p := fun m : Msg => m.photo && (clean_caption (m.caption.getD "") == k)) _
        (by simp [hp]), indexInsert_not_photo (by simpa using hp)]
      exact ih acc

theorem lookup_empty_foldl :
    ∀ (msgs : List Msg) (acc : CaptionIndex),
      List.lookup "" (msgs.foldl indexInsert acc) = List.lookup "" acc := by
  intro msgs
  induction msgs with
  | nil => intro acc; rfl
  | cons m rest ih =>
    intro acc
    rw [List.foldl_cons]
    by_cases hp : m.photo
    · rw [indexInsert_photo hp]
      by_cases hins : clean_caption (m.caption.getD "") ≠ "" ∧
          (List.lookup (clean_caption (m.caption.getD "")) acc).isNone = true
      · rw [if_pos hins, ih, List.lookup_append,
          lookup_singleton_ne (by
            rw [beq_eq_false_iff_ne]
            exact fun h => hins.1 h.symm), Option.or_none]
      · rw [if_neg hins, ih]
    · rw [indexInsert_not_photo (by simpa using hp)]
      exact ih acc

theorem find?_filterMap_fetch (fetch : Fetch) (chat : Int) (k : String) :
    ∀ l : List Nat,
      ((l.filterMap (fun i => match fetch chat i with
          | some m => if m.isEmpty then none else some m
          | none => none)).find?
        (fun m => m.photo && (clean_caption (m.caption.getD "") == k))) =
      (match l.find? (fun i => match fetch chat i with
          | some m => !m.isEmpty && m.photo && (clean_caption (m.caption.getD "") == k)
          | none => false) with
        | some i => fetch chat i
        | none => none) := by
  intro l
  induction l with
  | nil => rfl
  | cons i rest ih =>
    simp only [List.filterMap_cons]
    cases hf : fetch chat i with
    | none =>
      simp only [hf]
      rw [List.find?_cons_of_neg _ (by simp [hf])]
      exact ih
    | some m =>
      by_cases he : m.isEmpty
      · simp only [hf, if_pos he]
        rw [List.find?_cons_of_neg _ (by simp [hf, he])]
        exact ih
      · simp only [hf, if_neg he]
        by_cases hp : (m.photo && (clean_caption (m.caption.getD "") == k)) = true
        · rw [List.find?_cons_of_pos
            (p := fun m : Msg => m.photo && (clean_caption (m.caption.getD "") == k)) _ hp,
            List.find?_cons_of_pos _ (by
              simp only [hf]
              simp only [Bool.and_eq_true] at hp
              simp only [Bool.and_eq_true, Bool.not_eq_true']
              exact ⟨⟨by simpa using he, hp.1⟩, hp.2⟩)]
          simp [hf]
        · rw [List.find?_cons_of_neg
            (p := fun m : Msg => m.photo && (clean_caption (m.caption.getD "") == k)) _ hp,
            List.find?_cons_of_neg _ (by
              simp only [hf]
              intro hcon
              apply hp
              simp only [Bool.and_eq_true, Bool.not_eq_true'] at hcon
              simp only [Bool.and_eq_true]
              exact ⟨hcon.1.2, hcon.2⟩)]
          exact ih

/-- Claim C4: for every target range (endpoints in either order), batch size
and caption key, the built index maps a non-empty key to the id of the first
photo, in ascending message-id order across the scanned range, whose
normalized caption equals that key — provided the store returns messages
under their own ids.  Non-photo messages and photos with an empty normalized
caption are never inserted (the empty key is absent, and only photo entries
are consulted), and a later photo with an already-present key never
overwrites the stored id (the stored id is the first match). -/
theorem build_index_spec (fetch : Fetch) (chat : Int) (s e c : Nat) (k : String)
    (hc : 0 < c) (hwf : ∀ i m, fetch chat i = some m → m.id = i) :
    List.lookup k (build_index_for_target fetch chat s e c) =
      if k = "" then none
      else (List.range' (min s e) (max s e + 1 - min s e)).find? (fun i =>
        match fetch chat i with
        | some m => !m.isEmpty && m.photo && (clean_caption (m.caption.getD "") == k)
        | none => false) := by
  unfold build_index_for_target
  by_cases hk : k = ""
  · subst hk
    rw [if_pos rfl, lookup_empty_foldl]
    rfl
  · rw [if_neg hk, lookup_foldl_indexInsert hk, iter_range_eq_filterMap fetch chat s e c hc]
    rw [show (List.lookup k ([] : CaptionIndex)) = none from rfl]
    rw [find?_filterMap_fetch fetch chat k]
    cases hfind : (List.range' (min s e) (max s e + 1 - min s e)).find? (fun i =>
        match fetch chat i with
        | some m => !m.isEmpty && m.photo && (clean_caption (m.caption.getD "") == k)
        | none => false) with
    | none => rfl
    | some i =>
        have hpi : (match fetch chat i with
            | some m => !m.isEmpty && m.photo && (clean_caption (m.caption.getD "") == k)
            | none => false) = true := by
          have := List.find?_some hfind
          simpa using this
        cases hf : fetch chat i with
        | none => rw [hf] at hpi; exact absurd hpi (by simp)
        | some m =>
            dsimp only
            rw [hf, Option.map_some', hwf i m hf]
            rfl

/-- Witness for `build_index_spec`: over `fetchIdx` and the range `(13, 10)`
the key `"sunset view"` resolves to the first photo id 10, and the empty key
to nothing. -/
theorem build_index_spec_witness :
    List.lookup "sunset view" (build_index_for_target fetchIdx 7 13 10 200) =
      (if ("sunset view" : String) = "" then none
       else (List.range' (min 13 10) (max 13 10 + 1 - min 13 10)).find? (fun i =>
        match fetchIdx 7 i with
        | some m => !m.isEmpty && m.photo && (clean_caption (m.caption.getD "") == "sunset view")
        | none => false)) ∧
    List.lookup "" (build_index_for_target fetchIdx 7 13 10 200) =
      (if ("" : String) = "" then none
       else (List.range' (min 13 10) (max 13 10 + 1 - min 13 10)).find? (fun i =>
        match fetchIdx 7 i with
        | some m => !m.isEmpty && m.photo && (clean_caption (m.caption.getD "") == "")
        | none => false)) := by
  have hwf : ∀ i m, fetchIdx 7 i = some m → m.id = i := by
    intro i m h
    unfold fetchIdx at h
    obtain rfl := Option.some.inj h
    rfl
  exact ⟨build_index_spec fetchIdx 7 13 10 200 "sunset view" (by decide) hwf,
    build_index_spec fetchIdx 7 13 10 200 "" (by decide) hwf⟩

/-! ## Claim C1: empty-key photos in the relay loop -/

/-- Claim C1, counterexample: a source photo whose normalized caption is
empty IS included in the processed count — `processed_x += 1` runs before
the empty-key check — contradicting the claim that such a photo is not
counted.  (It is indeed never queried against any index: the run emits no
events and changes no sent/notFound counter.) -/
theorem empty_caption_processed_cex :
    runMsgs ctxC1 (fun _ _ => none) [mEmptyCap] 0 0 {} =
      ([], { processed := 1, sent1 := 0, sent2 := 0, nf1 := 0, nf2 := 0 }, none) ∧
    (runMsgs ctxC1 (fun _ _ => none) [mEmptyCap] 0 0 {}).2.1.processed ≠ 0 := by
  constructor
  · rfl
  · intro h
    rw [show (runMsgs ctxC1 (fun _ _ => none) [mEmptyCap] 0 0 {}).2.1.processed = 1
      from rfl] at h
    exact absurd h (by decide)

/-- Claim C1 (amended): a source-range photo whose normalized caption is
empty is counted in the processed count (`processed_x += 1` precedes the
key check) but is otherwise skipped entirely: it is not queried against any
target's index (the step emits no events at all, in particular no lookup),
it changes no sent or notFound counter, it leaves the copy-attempt counter
unchanged and cannot abort the run; the rest of the run proceeds exactly as
if the loop had started after the message with only `processed` increased. -/
theorem empty_caption_skip_spec (ctx : RunCtx) (liveAt : Nat → Nat → Option ChatRef)
    (i k : Nat) (c : Counters) (m : Msg) (rest : List Msg) (hp : m.photo = true)
    (hk : clean_caption (m.caption.getD "") = "") :
    msgStep ctx (liveAt i) k c m = ([], k, { c with processed := c.processed + 1 }, none) ∧
    runMsgs ctx liveAt (m :: rest) i k c =
      runMsgs ctx liveAt rest (i + 1) k { c with processed := c.processed + 1 } := by
  have h1 : msgStep ctx (liveAt i) k c m =
      ([], k, { c with processed := c.processed + 1 }, none) := by
    unfold msgStep
    rw [if_neg (by simp [hp])]
    dsimp only
    rw [if_pos hk]
  refine ⟨h1, ?_⟩
  simp only [runMsgs, h1, List.nil_append]

/-- Witness for `empty_caption_skip_spec` at the concrete context `ctxC1`
and an URL-only-caption photo. -/
theorem empty_caption_skip_spec_witness :
    mEmptyCap.photo = true ∧ clean_caption (mEmptyCap.caption.getD "") = "" ∧
    msgStep ctxC1 ((fun _ _ => none) 0) 0 {} mEmptyCap =
      ([], 0, { (({} : Counters)) with processed := ({} : Counters).processed + 1 }, none) :=
  ⟨by decide, by decide,
    (empty_caption_skip_spec ctxC1 (fun _ _ => none) 0 0 {} mEmptyCap []
      (by decide) (by decide)).1⟩

/-! ## Claim C3: rate-limit backoff and abort -/

/-- Claim C3: a relay call that receives `FloodWait n` sleeps exactly `n`
seconds and retries the same copy exactly once — the event trace is exactly
one attempt, one sleep of `n`, one further attempt, never a second backoff;
if the retry also receives a rate-limit signal that error escapes
`safe_copy`, an aborting message step ends the run with that error and no
event from, lookup against, or counter change for any later source message;
and an abort inside a photo's first target skips its second target. -/
theorem safe_copy_rate_limit_spec (copyO : Nat → CopyRes) (k n : Nat)
    (dest : Option ChatRef) (fc : Int) (mid : Nat) (cap : String) :
    (copyO k = .floodWait n → copyO (k + 1) = .ok →
      safe_copy copyO k dest fc mid cap =
        ([.copyAttempt dest fc mid cap, .sleepSecs n, .copyAttempt dest fc mid cap],
         k + 2, none)) ∧
    (∀ n₂, copyO k = .floodWait n → copyO (k + 1) = .floodWait n₂ →
      safe_copy copyO k dest fc mid cap =
        ([.copyAttempt dest fc mid cap, .sleepSecs n, .copyAttempt dest fc mid cap],
         k + 2, some (.flood n₂))) ∧
    (∀ (ctx : RunCtx) (liveAt : Nat → Nat → Option ChatRef) (m : Msg) (rest : List Msg)
        (i kk : Nat) (c : Counters) (ev : List Event) (k' : Nat) (c' : Counters)
        (e : RunError),
      msgStep ctx (liveAt i) kk c m = (ev, k', c', some e) →
      runMsgs ctx liveAt (m :: rest) i kk c = (ev, c', some e)) ∧
    (∀ (ctx : RunCtx) (live : Nat → Option ChatRef) (kk : Nat) (c : Counters) (m : Msg)
        (ev : List Event) (k' : Nat) (c' : Counters) (e : RunError),
      m.photo = true → clean_caption (m.caption.getD "") ≠ "" →
      targetStep ctx (live 1) 1 (clean_caption (m.caption.getD "")) kk
          { c with processed := c.processed + 1 } = (ev, k', c', some e) →
      msgStep ctx live kk c m = (ev, k', c', some e)) := by
  refine ⟨?_, ?_, ?_, ?_⟩
  · intro h1 h2
    unfold safe_copy
    rw [h1, h2]
  · intro n₂ h1 h2
    unfold safe_copy
    rw [h1, h2]
  · intro ctx liveAt m rest i kk c ev k' c' e h
    simp only [runMsgs, h]
  · intro ctx live kk c m ev k' c' e hp hk h
    unfold msgStep
    rw [if_neg (by simp [hp])]
    dsimp only
    rw [if_neg hk, h]

/-- Witness for `safe_copy_rate_limit_spec`: the flood-then-ok and
flood-then-flood branches of `safe_copy` at `copyOW`, and the run abort on a
twice-rate-limited copy with a second pending source message never
processed. -/
theorem safe_copy_rate_limit_spec_witness :
    safe_copy copyOW 0 none (-100900) 50 "cap" =
      ([.copyAttempt none (-100900) 50 "cap", .sleepSecs 5,
        .copyAttempt none (-100900) 50 "cap"], 2, none) ∧
    safe_copy copyOW 2 none (-100900) 50 "cap" =
      ([.copyAttempt none (-100900) 50 "cap", .sleepSecs 9,
        .copyAttempt none (-100900) 50 "cap"], 4, some (.flood 4)) ∧
    runMsgs ctxC3 (fun _ _ => none) [mC3, mC3] 0 0 {} =
      ((msgStep ctxC3 ((fun _ _ => none) 0) 0 {} mC3).1,
       (msgStep ctxC3 ((fun _ _ => none) 0) 0 {} mC3).2.2.1, some (.flood 4)) := by
  refine ⟨?_, ?_, ?_⟩
  · exact (safe_copy_rate_limit_spec copyOW 0 5 none (-100900) 50 "cap").1
      (by decide) (by decide)
  · exact (safe_copy_rate_limit_spec copyOW 2 9 none (-100900) 50 "cap").2.1 4
      (by decide) (by decide)
  · exact (safe_copy_rate_limit_spec copyOW 0 0 none 0 0 "").2.2.1 ctxC3
      (fun _ _ => none) mC3 [mC3] 0 0 {}
      (msgStep ctxC3 ((fun _ _ => none) 0) 0 {} mC3).1
      (msgStep ctxC3 ((fun _ _ => none) 0) 0 {} mC3).2.1
      (msgStep ctxC3 ((fun _ _ => none) 0) 0 {} mC3).2.2.1
      (.flood 4) (by decide)

/-! ## Claim C2: configuration reads during a run -/

/-- Claim C2, counterexample: the run does not read the configuration as an
immutable snapshot.  Two executions from the same starting configuration
`sC2` and the same remote responses, one of which applies
`/setlist 1 other` between the first and the second source message (read
points 5 and later), relay the second message to different destinations:
the loop re-reads `STATE.targets[n].target_list` live at line 398 of
`main.py`. -/
theorem run_not_snapshot_cex :
    cmd_run_model remC2 (fun _ => sC2) ≠
      cmd_run_model remC2 (fun i => if i ≤ 4 then sC2 else cmd_setlist 1 "other" sC2) := by
  decide

/-- Claim C2 (amended): the run parses the ranges and builds the indexes
from the configuration as read at run start, but re-reads
`STATE.targets[n].target_a` live during resolution and index building (read
points 1 and 2) and `STATE.targets[n].target_list` live at each source
message of the relay loop.  Hence any two executions from the same start
configuration and remote responses agreeing with the run-start values at
every one of those live read points — while every field not read live
(source, ranges, waiting marker) may be mutated arbitrarily, and the read
fields may be mutated between read points — relay the same messages to the
same destinations with the same counters as the pure snapshot run. -/
theorem run_snapshot_spec (r : Remote) (stateAt : Nat → State)
    (ha1 : (stateAt 1).targets1.target_a = (stateAt 0).targets1.target_a)
    (ha2 : (stateAt 2).targets2.target_a = (stateAt 0).targets2.target_a)
    (h : ∀ i n, ((stateAt (3 + 2 * i + (n - 1))).target n).target_list =
      ((stateAt 0).target n).target_list) :
    cmd_run_model r stateAt = cmd_run_model r (fun _ => stateAt 0) := by
  unfold cmd_run_model
  simp only []
  rw [ha1, ha2]
  have hfun : (fun (i n : Nat) =>
        ((stateAt (3 + 2 * i + (n - 1))).target n).target_list) =
      (fun (i n : Nat) => ((stateAt 0).target n).target_list) := by
    funext i n
    exact h i n
  rw [hfun]

/-- Witness for `run_snapshot_spec`: a schedule that mutates only the
waiting marker mid-run leaves the run equal to the snapshot run. -/
theorem run_snapshot_spec_witness :
    cmd_run_model remC2
        (fun i => if i = 0 then sC2 else { sC2 with waiting_for := some "w" }) =
      cmd_run_model remC2
        (fun _ => (fun i => if i = 0 then sC2 else { sC2 with waiting_for := some "w" }) 0) := by
  apply run_snapshot_spec
  · rfl
  · rfl
  · intro i n
    have h0 : ¬ (3 + 2 * i + (n - 1) = 0) := by omega
    simp only [if_neg h0]
    rfl

/-! ## Claim C10: the channel component of range links -/

theorem strTruthy_of_parse {o : Option String} {r : ChatRef × Nat}
    (h : parse_tme_link (o.getD "") = some r) : strTruthy o = true := by
  cases o with
  | none =>
      rw [show (Option.getD (none : Option String) "") = "" from rfl,
        (by decide : parse_tme_link "" = none)] at h
      exact Option.noConfusion h
  | some t =>
      by_cases ht : t = ""
      · subst ht
        rw [show (Option.getD (some "") "") = "" from rfl,
          (by decide : parse_tme_link "" = none)] at h
        exact Option.noConfusion h
      · simp [strTruthy, ht]

/-- Claim C10, counterexample: the channel component of a range link is not
discarded entirely.  `t.me/c/123/5` and `t.me/c/abc/5` differ only in the
channel portion and carry the same message id 5, yet the second makes the
run abort with a link parse error (`int("abc")` raises inside
`parse_tme_link` before the id is used), so the two configurations do not
produce identical runs and an error is reported. -/
theorem link_channel_not_ignored_cex :
    (parse_tme_link "t.me/c/123/5").map (·.2) = some 5 ∧
    parse_tme_link "t.me/c/abc/5" = none ∧
    cmd_run_parse sL2 = Except.error ParseFail.xLinkErr ∧
    cmd_run_model remL (fun _ => sL1) ≠ cmd_run_model remL (fun _ => sL2) := by
  decide

/-- Claim C10 (amended): provided every configured range link parses (in
private form this requires a numeric channel part), the run keeps only the
message-id component of each link: two configurations equal outside their
six link strings whose links parse to the same message ids — channel
components arbitrary — produce identical runs, with no error reported. -/
theorem link_channel_ignored (s₁ s₂ : State) (rem : Remote)
    (hsrc : s₁.source_x = s₂.source_x)
    (ha1 : s₁.targets1.target_a = s₂.targets1.target_a)
    (hl1 : s₁.targets1.target_list = s₂.targets1.target_list)
    (ha2 : s₁.targets2.target_a = s₂.targets2.target_a)
    (hl2 : s₁.targets2.target_list = s₂.targets2.target_list)
    (hxs : ∃ c₁ c₂ m, parse_tme_link (s₁.x_start.getD "") = some (c₁, m) ∧
      parse_tme_link (s₂.x_start.getD "") = some (c₂, m))
    (hxe : ∃ c₁ c₂ m, parse_tme_link (s₁.x_end.getD "") = some (c₁, m) ∧
      parse_tme_link (s₂.x_end.getD "") = some (c₂, m))
    (h1s : ∃ c₁ c₂ m, parse_tme_link (s₁.targets1.a_start.getD "") = some (c₁, m) ∧
      parse_tme_link (s₂.targets1.a_start.getD "") = some (c₂, m))
    (h1e : ∃ c₁ c₂ m, parse_tme_link (s₁.targets1.a_end.getD "") = some (c₁, m) ∧
      parse_tme_link (s₂.targets1.a_end.getD "") = some (c₂, m))
    (h2s : ∃ c₁ c₂ m, parse_tme_link (s₁.targets2.a_start.getD "") = some (c₁, m) ∧
      parse_tme_link (s₂.targets2.a_start.getD "") = some (c₂, m))
    (h2e : ∃ c₁ c₂ m, parse_tme_link (s₁.targets2.a_end.getD "") = some (c₁, m) ∧
      parse_tme_link (s₂.targets2.a_end.getD "") = some (c₂, m)) :
    cmd_run_model rem (fun _ => s₁) = cmd_run_model rem (fun _ => s₂) := by
  obtain ⟨cxs₁, cxs₂, mxs, hxs₁, hxs₂⟩ := hxs
  obtain ⟨cxe₁, cxe₂, mxe, hxe₁, hxe₂⟩ := hxe
  obtain ⟨c1s₁, c1s₂, m1s, h1s₁, h1s₂⟩ := h1s
  obtain ⟨c1e₁, c1e₂, m1e, h1e₁, h1e₂⟩ := h1e
  obtain ⟨c2s₁, c2s₂, m2s, h2s₁, h2s₂⟩ := h2s
  obtain ⟨c2e₁, c2e₂, m2e, h2e₁, h2e₂⟩ := h2e
  have hA₁ : ¬¬(strTruthy s₁.x_start = true ∧ strTruthy s₁.x_end = true) :=
    not_not_intro ⟨strTruthy_of_parse hxs₁, strTruthy_of_parse hxe₁⟩
  have hA₂ : ¬¬(strTruthy s₂.x_start = true ∧ strTruthy s₂.x_end = true) :=
    not_not_intro ⟨strTruthy_of_parse hxs₂, strTruthy_of_parse hxe₂⟩
  have hB₁ : ¬¬(strTruthy s₁.targets1.a_start = true ∧ strTruthy s₁.targets1.a_end = true) :=
    not_not_intro ⟨strTruthy_of_parse h1s₁, strTruthy_of_parse h1e₁⟩
  have hB₂ : ¬¬(strTruthy s₂.targets1.a_start = true ∧ strTruthy s₂.targets1.a_end = true) :=
    not_not_intro ⟨strTruthy_of_parse h1s₂, strTruthy_of_parse h1e₂⟩
  have hC₁ : ¬¬(strTruthy s₁.targets2.a_start = true ∧ strTruthy s₁.targets2.a_end = true) :=
    not_not_intro ⟨strTruthy_of_parse h2s₁, strTruthy_of_parse h2e₁⟩
  have hC₂ : ¬¬(strTruthy s₂.targets2.a_start = true ∧ strTruthy s₂.targets2.a_end = true) :=
    not_not_intro ⟨strTruthy_of_parse h2s₂, strTruthy_of_parse h2e₂⟩
  have hparse : cmd_run_parse s₁ = cmd_run_parse s₂ := by
    unfold cmd_run_parse
    rw [hsrc, ha1, hl1, ha2, hl2]
    rw [if_neg hA₁, if_neg hA₂, if_neg hB₁, if_neg hB₂, if_neg hC₁, if_neg hC₂]
    rw [hxs₁, hxs₂, hxe₁, hxe₂, h1s₁, h1s₂, h1e₁, h1e₂, h2s₁, h2s₂, h2e₁, h2e₂]
  unfold cmd_run_model
  simp only []
  rw [hparse, hsrc, ha1, ha2]
  have hfun : (fun (i n : Nat) => ((s₁).target n).target_list) =
      (fun (i n : Nat) => ((s₂).target n).target_list) := by
    funext i n
    unfold State.target
    by_cases hn : n = 1
    · rw [if_pos hn, if_pos hn, hl1]
    · rw [if_neg hn, if_neg hn, hl2]
  rw [hfun]

/-- Witness for `link_channel_ignored`: changing only the numeric channel
portion of the first source link (`123` to `999`) leaves the run
unchanged. -/
theorem link_channel_ignored_witness :
    cmd_run_model remL (fun _ => sL1) = cmd_run_model remL (fun _ => sL3) :=
  link_channel_ignored sL1 sL3 remL rfl rfl rfl rfl rfl
    ⟨.id (-100123), .id (-100999), 5, by decide, by decide⟩
    ⟨.handle "s", .handle "s", 6, by decide, by decide⟩
    ⟨.handle "b1", .handle "b1", 70, by decide, by decide⟩
    ⟨.handle "b1", .handle "b1", 70, by decide, by decide⟩
    ⟨.handle "b2", .handle "b2", 80, by decide, by decide⟩
    ⟨.handle "b2", .handle "b2", 80, by decide, by decide⟩

end ListMaker
